import Mathlib

/-!
# sol2proto / solgen: the ABI-to-descriptor compiler (`bind/data.go`)

A shallow embedding of `parseContract` and `getContract` and the properties
of the contract descriptor they build.

Conventions of the embedding

* A Go `map[string]V` is a `GoMap V`: its entries as a list together with the
  proof that the keys are pairwise distinct.  The order of the list is the
  order in which a `range` loop visits the entries; Go leaves that order
  unspecified, and every theorem below holds for every order.
* A Go `string` is a Lean `String`, read as the sequence of runes that
  `range` and `strings.Map` see.
* `(*T, error)` results are pairs of options: `none` is `nil`.
* Functions of other packages that `parseContract` calls
  (`language.MethodNormalizer`, `language.BindStructType`, `utils.Capitalise`,
  `utils.Structured`) and the library parser `abi.JSON` are parameters.
-/

namespace Solgen

/-! ## Go maps -/

/-- A Go map with string keys: entries in iteration order, keys distinct. -/
structure GoMap (V : Type) where
  entries : List (String × V)
  nodup : (entries.map Prod.fst).Nodup

namespace GoMap

variable {V : Type}

/-- The result of `make(map[string]V)`. -/
def empty : GoMap V := ⟨[], List.nodup_nil⟩

/-- The keys of the map. -/
def keys (m : GoMap V) : List String := m.entries.map Prod.fst

/-- Lookup in a list of entries. -/
def lookup (k : String) : List (String × V) → Option V
  | [] => none
  | (k', v) :: rest => if k' = k then some v else lookup k rest

/-- The value of `m[k]` with its presence flag: `v, ok := m[k]`. -/
def get? (m : GoMap V) (k : String) : Option V := lookup k m.entries

/-- The presence test `_, exist := m[k]`. -/
def contains (m : GoMap V) (k : String) : Bool := (m.get? k).isSome

/-- The number of entries, `len(m)`. -/
def len (m : GoMap V) : Nat := m.entries.length

/-- Assignment on a list of entries: overwrite the entry of `k`, or add one. -/
def insertEntry (k : String) (v : V) : List (String × V) → List (String × V)
  | [] => [(k, v)]
  | (k', v') :: rest =>
    if k' = k then (k, v) :: rest else (k', v') :: insertEntry k v rest

theorem mem_keys_insertEntry (k : String) (v : V) (l : List (String × V)) (x : String) :
    x ∈ (insertEntry k v l).map Prod.fst ↔ x = k ∨ x ∈ l.map Prod.fst := by
  induction l with
  | nil => simp [insertEntry]
  | cons hd tl ih =>
    obtain ⟨k', v'⟩ := hd
    by_cases h : k' = k
    · subst h
      simp [insertEntry]
    · simp only [insertEntry, if_neg h, List.map_cons, List.mem_cons, ih]
      tauto

theorem nodup_insertEntry (k : String) (v : V) (l : List (String × V))
    (h : (l.map Prod.fst).Nodup) : ((insertEntry k v l).map Prod.fst).Nodup := by
  induction l with
  | nil => simp [insertEntry]
  | cons hd tl ih =>
    obtain ⟨k', v'⟩ := hd
    simp only [List.map_cons, List.nodup_cons] at h
    by_cases hk : k' = k
    · subst hk
      simpa [insertEntry] using h
    · simp only [insertEntry, if_neg hk, List.map_cons, List.nodup_cons]
      refine ⟨?_, ih h.2⟩
      intro hmem
      rcases (mem_keys_insertEntry k v tl k').1 hmem with h1 | h1
      · exact hk h1
      · exact h.1 h1

/-- The assignment `m[k] = v`. -/
def set (m : GoMap V) (k : String) (v : V) : GoMap V :=
  ⟨insertEntry k v m.entries, nodup_insertEntry k v m.entries m.nodup⟩

/-- Update of every value in place, keys untouched (a `range` loop over a map
of pointers that writes through the pointer). -/
def mapValues (f : String → V → V) (m : GoMap V) : GoMap V :=
  ⟨m.entries.map (fun e => (e.1, f e.1 e.2)), by
    have h : (m.entries.map (fun e => (e.1, f e.1 e.2))).map Prod.fst
        = m.entries.map Prod.fst := by
      rw [List.map_map]; rfl
    rw [h]; exact m.nodup⟩

end GoMap

/-! ## The ABI data model (`go-ethereum/accounts/abi`) -/

/-- The type tags of `abi.Type.T`. -/
inductive TypeKind where
  | IntTy | UintTy | BoolTy | StringTy | SliceTy | ArrayTy | TupleTy
  | AddressTy | FixedBytesTy | BytesTy | HashTy | FixedPointTy | FunctionTy
  deriving DecidableEq, Repr

/-- The type `abi.Type`: the tag `T`, the canonical string `stringKind`, the
array size, the element type of a slice or array (at most one) and the field
types and names of a tuple. -/
inductive AbiType where
  | mk (T : TypeKind) (stringKind : String) (Size : Nat) (Elem : List AbiType)
      (TupleElems : List AbiType) (TupleRawNames : List String) : AbiType

/-- The field `T`. -/
def AbiType.T : AbiType → TypeKind
  | .mk t _ _ _ _ _ => t

/-- The field `TupleElems`. -/
def AbiType.TupleElems : AbiType → List AbiType
  | .mk _ _ _ _ es _ => es

/-- The field `TupleRawNames`. -/
def AbiType.TupleRawNames : AbiType → List String
  | .mk _ _ _ _ _ ns => ns

/-- The method `Type.String()`, the canonical signature. -/
def AbiType.String : AbiType → String
  | .mk _ s _ _ _ _ => s

/-- The type `abi.Argument`. -/
structure abi.Argument where
  Name : String
  Ty : AbiType
  Indexed : Bool

/-- The type `abi.Method`. -/
structure abi.Method where
  Name : String
  Const : Bool
  Inputs : List abi.Argument
  Outputs : List abi.Argument

/-- The type `abi.Event`. -/
structure abi.Event where
  Name : String
  Anonymous : Bool
  Inputs : List abi.Argument

/-- The type `abi.ABI`. -/
structure abi.ABI where
  Constructor : abi.Method
  Methods : GoMap abi.Method
  Events : GoMap abi.Event

/-! ## The binding data model (`bind`, `bind/language`, `bind/template`) -/

/-- The target languages `language.Lang` that the sources name. -/
inductive Lang where
  | Go | Java
  deriving DecidableEq, Repr

/-- The allow-list `Customs`: exposed methods and struct renames. -/
structure Customs where
  Methods : GoMap Bool
  Structs : GoMap String

/-- A field of a generated struct, `template.Field`. -/
structure template.Field where
  Ty : String
  Name : String
  SolKind : AbiType

/-- A generated struct, `template.Struct`. -/
structure template.Struct where
  Name : String
  Fields : List template.Field

/-- A bound method, `template.Method`. -/
structure template.Method where
  Original : abi.Method
  Normalized : abi.Method
  Structured : Bool

/-- A bound event, `template.Event`. -/
structure template.Event where
  Original : abi.Event
  Normalized : abi.Event

/-- The contract descriptor, `template.Contract`. -/
structure template.Contract where
  Constructor : abi.Method
  Calls : GoMap template.Method
  Transacts : GoMap template.Method
  Events : GoMap template.Event
  Structs : GoMap template.Struct
  InputABI : String

/-- The functions of other packages that `parseContract` calls. The struct
resolver `language.BindStructType[lang]` mutates the registry it is handed; here
it returns the registry it leaves behind, whatever entries it added, replaced or
removed. The registry is held by value: every key owns its record, as with a
resolver that allocates a record for each signature it registers. -/
structure Env where
  MethodNormalizer : Lang → String → String
  BindStructType : Lang → AbiType → GoMap template.Struct → GoMap template.Struct
  Capitalise : String → String
  Structured : List abi.Argument → Bool

/-! ## `parseContract` -/

/-- The three places of `parseContract` that call the struct resolver. -/
inductive Site where
  | methodInput | methodOutput | eventInput
  deriving DecidableEq, Repr

/-- A record of one call of the struct resolver: where it was made, the
argument whose type was passed, and the registry as it was before the call. -/
structure ResolverCall where
  site : Site
  arg : abi.Argument
  before : GoMap template.Struct

/-- The local variables of `parseContract` that its loops update, and `log`, a
ghost variable: the calls of the struct resolver made so far, oldest first.
Nothing reads `log`. -/
structure ParseState where
  calls : GoMap template.Method
  transacts : GoMap template.Method
  events : GoMap template.Event
  structs : GoMap template.Struct
  log : List ResolverCall

/-- The guarded resolver call
`if _, exist := structs[a.Type.String()]; a.Type.T == abi.TupleTy && !exist`. -/
def bindIfNew (env : Env) (lang : Lang) (site : Site) (a : abi.Argument)
    (st : GoMap template.Struct × List ResolverCall) :
    GoMap template.Struct × List ResolverCall :=
  if a.Ty.T = TypeKind.TupleTy ∧ st.1.contains a.Ty.String = false then
    (env.BindStructType lang a.Ty st.1, st.2 ++ [⟨site, a, st.1⟩])
  else st

/-- The loop over `normalized.Inputs` of a method, from index `j` on: the
renamed inputs and the registry it leaves. -/
def methodInputs (env : Env) (lang : Lang) :
    Nat → List abi.Argument → GoMap template.Struct × List ResolverCall →
    List abi.Argument × (GoMap template.Struct × List ResolverCall)
  | _, [], st => ([], st)
  | j, input :: rest, st =>
    let input1 := if input.Name = "" then { input with Name := "arg" ++ toString j } else input
    let r := methodInputs env lang (j + 1) rest (bindIfNew env lang Site.methodInput input st)
    (input1 :: r.1, r.2)

/-- The loop over `normalized.Outputs` of a method. -/
def methodOutputs (env : Env) (lang : Lang) :
    List abi.Argument → GoMap template.Struct × List ResolverCall →
    List abi.Argument × (GoMap template.Struct × List ResolverCall)
  | [], st => ([], st)
  | output :: rest, st =>
    let output1 :=
      if output.Name ≠ "" then { output with Name := env.Capitalise output.Name } else output
    let r := methodOutputs env lang rest (bindIfNew env lang Site.methodOutput output st)
    (output1 :: r.1, r.2)

/-- The loop over `normalized.Inputs` of an event, from index `j` on. -/
def eventInputs (env : Env) (lang : Lang) :
    Nat → List abi.Argument → GoMap template.Struct × List ResolverCall →
    List abi.Argument × (GoMap template.Struct × List ResolverCall)
  | _, [], st => ([], st)
  | j, input :: rest, st =>
    let input1 :=
      if input.Indexed = true then
        (if input.Name = "" then { input with Name := "arg" ++ toString j } else input)
      else input
    let st1 := if input.Indexed = true then bindIfNew env lang Site.eventInput input st else st
    let r := eventInputs env lang (j + 1) rest st1
    (input1 :: r.1, r.2)

/-- One iteration of `for methodName, original := range evmABI.Methods`. -/
def methodStep (env : Env) (customs : Customs) (lang : Lang) (st : ParseState)
    (e : String × abi.Method) : ParseState :=
  let methodName := e.1
  let original := e.2
  match customs.Methods.get? methodName with
  | some true =>
    let ins := methodInputs env lang 0 original.Inputs (st.structs, st.log)
    let outs := methodOutputs env lang original.Outputs ins.2
    let normalized : abi.Method :=
      { original with
        Name := env.MethodNormalizer lang original.Name
        Inputs := ins.1
        Outputs := outs.1 }
    let m : template.Method :=
      { Original := original
        Normalized := normalized
        Structured := env.Structured original.Outputs }
    if original.Const = true then
      { st with calls := st.calls.set original.Name m, structs := outs.2.1, log := outs.2.2 }
    else
      { st with transacts := st.transacts.set original.Name m, structs := outs.2.1, log := outs.2.2 }
  | _ => st

/-- One iteration of `for _, original := range evmABI.Events`. -/
def eventStep (env : Env) (lang : Lang) (st : ParseState)
    (e : String × abi.Event) : ParseState :=
  let original := e.2
  if original.Anonymous = true then st
  else
    let ins := eventInputs env lang 0 original.Inputs (st.structs, st.log)
    let normalized : abi.Event :=
      { original with
        Name := env.MethodNormalizer lang original.Name
        Inputs := ins.1 }
    { st with
      events := st.events.set original.Name ⟨original, normalized⟩
      structs := ins.2.1
      log := ins.2.2 }

/-- The state at the declaration of the four maps. -/
def initState : ParseState :=
  ⟨GoMap.empty, GoMap.empty, GoMap.empty, GoMap.empty, []⟩

/-- The state after the loop over the methods. -/
def methodPhase (env : Env) (evmABI : abi.ABI) (customs : Customs) (lang : Lang) : ParseState :=
  evmABI.Methods.entries.foldl (methodStep env customs lang) initState

/-- The state after the loop over the events. -/
def eventPhase (env : Env) (evmABI : abi.ABI) (customs : Customs) (lang : Lang) : ParseState :=
  evmABI.Events.entries.foldl (eventStep env lang) (methodPhase env evmABI customs lang)

/-- The body of `for exp, strt := range structs`: the rename of one struct. -/
def renameStruct (customs : Customs) (exp : String) (strt : template.Struct) : template.Struct :=
  match customs.Structs.get? exp with
  | some n => { strt with Name := n }
  | none => strt

/-- The function `parseContract`: the descriptor and the error it returns. -/
def parseContract (env : Env) (evmABI : abi.ABI) (customs : Customs) (lang : Lang) :
    Option template.Contract × Option String :=
  let st := eventPhase env evmABI customs lang
  if 0 < st.structs.len ∧ lang = Lang.Java then
    (none, some "java binding for tuple arguments is not supported yet")
  else
    (some
      { Constructor := evmABI.Constructor
        Calls := st.calls
        Transacts := st.transacts
        Events := st.events
        Structs := st.structs.mapValues (renameStruct customs)
        InputABI := "" }, none)

/-- The calls of the struct resolver made by `parseContract`, oldest first. -/
def resolverCalls (env : Env) (evmABI : abi.ABI) (customs : Customs) (lang : Lang) :
    List ResolverCall :=
  (eventPhase env evmABI customs lang).log

/-! ## `getContract` -/

/-- The predicate `unicode.IsSpace`: the code points with the Unicode property
White_Space. -/
def isSpace (r : Char) : Bool :=
  let n := r.toNat
  n = 0x09 || n = 0x0A || n = 0x0B || n = 0x0C || n = 0x0D || n = 0x20 || n = 0x85 || n = 0xA0
    || n = 0x1680 || (0x2000 ≤ n && n ≤ 0x200A) || n = 0x2028 || n = 0x2029 || n = 0x202F
    || n = 0x205F || n = 0x3000

/-- The call `strings.Map` of `getContract` on the runes of the text: a rune
for which `unicode.IsSpace` holds is dropped, any other rune is kept. -/
def stripSpaces : List Char → List Char
  | [] => []
  | r :: rest => if isSpace r = true then stripSpaces rest else r :: stripSpaces rest

/-- The double quote, U+0022. -/
def dquote : Char := Char.ofNat 34

/-- The backslash, U+005C. -/
def backslash : Char := Char.ofNat 92

/-- The call `strings.Replace` of `getContract` on the runes of the text: every
double quote becomes a backslash followed by a double quote. -/
def escapeQuotes : List Char → List Char
  | [] => []
  | r :: rest =>
    if r = dquote then backslash :: dquote :: escapeQuotes rest else r :: escapeQuotes rest

/-- The function `getContract`; `abiJSON` is the library parser `abi.JSON`.
The last case, a nil descriptor with a nil error, is the one in which the Go
code would dereference nil; `parseContract` never returns it. -/
def getContract (env : Env) (abiJSON : String → Except String abi.ABI)
    (rawABI : String) (customs : Customs) (lang : Lang) :
    Option template.Contract × Option String :=
  match abiJSON rawABI with
  | Except.error err => (none, some err)
  | Except.ok evmABI =>
    let strippedABI := stripSpaces rawABI.data
    match parseContract env evmABI customs lang with
    | (_, some err) => (none, some err)
    | (some contract, none) =>
      (some { contract with InputABI := String.mk (escapeQuotes strippedABI) }, none)
    | (none, none) => (none, none)

/-! ## An instance of the external functions and sample documents -/

/-- Modelled from the spec: `utils.Capitalise`, which is not among the sources;
"named outputs are capitalized": the first rune is put in upper case. -/
def capitalise (s : String) : String :=
  match s.data with
  | [] => ""
  | c :: cs => String.mk (c.toUpper :: cs)

/-- Modelled from the spec: the per-language identifier normalizer
`language.MethodNormalizer`, which is not among the sources; "exported/capitalized
form, or language-idiomatic form": capitalized for Go, first rune in lower case
for Java. -/
def methodNormalizer (lang : Lang) (s : String) : String :=
  match lang with
  | Lang.Go => capitalise s
  | Lang.Java =>
    match s.data with
    | [] => ""
    | c :: cs => String.mk (c.toLower :: cs)

mutual
/-- Modelled from the spec: the Struct Resolver `language.BindStructType`, which
is not among the sources. Given a tuple type it registers a record definition
under the canonical signature if and only if the registry has no entry with
that signature, after resolving the field types in declaration order; it
descends into the element type of an array or slice and leaves the registry
alone for any other type. The result is the registry and the name of the
host type. The default display name, which the spec leaves open, is `Struct`
followed by the number of structs registered before it. -/
def bindStructType : AbiType → GoMap template.Struct → GoMap template.Struct × String
  | .mk T s _ elem elems names, structs =>
    match T with
    | TypeKind.TupleTy =>
      match structs.get? s with
      | some strt => (structs, strt.Name)
      | none =>
        let r := bindFields elems names structs
        let name := "Struct" ++ toString r.1.len
        (r.1.set s ⟨name, r.2⟩, name)
    | TypeKind.ArrayTy => ((bindFields elem [] structs).1, s)
    | TypeKind.SliceTy => ((bindFields elem [] structs).1, s)
    | _ => (structs, s)
/-- Modelled from the spec: the walk of the Struct Resolver over the fields of
a tuple, in declaration order; the result is the registry and the fields. -/
def bindFields : List AbiType → List String → GoMap template.Struct →
    GoMap template.Struct × List template.Field
  | [], _, structs => (structs, [])
  | t :: ts, names, structs =>
    let r := bindStructType t structs
    let r2 := bindFields ts names.tail r.1
    (r2.1, ⟨r.2, capitalise (names.headD ""), t⟩ :: r2.2)
end

/-- Modelled from the spec: an instance of the functions of `bind/language` and
`bind/utils` that `parseContract` calls, none of which is among the sources.
The spec does not describe `utils.Structured`; the instance lets the flag hold
for two or more outputs. -/
def specEnv : Env where
  MethodNormalizer := methodNormalizer
  BindStructType := fun _ t structs => (bindStructType t structs).1
  Capitalise := capitalise
  Structured := fun outs => decide (2 ≤ outs.length)

/-- An elementary type with the given tag and canonical string. -/
def basicType (T : TypeKind) (s : String) : AbiType := .mk T s 0 [] [] []

/-- The type `uint256`. -/
def uint256 : AbiType := basicType TypeKind.UintTy "uint256"

/-- The type `address`. -/
def address : AbiType := basicType TypeKind.AddressTy "address"

/-- The tuple type `(uint256,address)` with the fields `amount` and `owner`. -/
def pairType : AbiType :=
  .mk TypeKind.TupleTy "(uint256,address)" 0 [] [uint256, address] ["amount", "owner"]

/-- A constructor without arguments. -/
def noConstructor : abi.Method := ⟨"", false, [], []⟩

/-- The method `getValue() view returns (uint256)`. -/
def getValue : abi.Method := ⟨"getValue", true, [], [⟨"", uint256, false⟩]⟩

/-- The document with the single method `getValue`. -/
def getValueABI : abi.ABI :=
  ⟨noConstructor, ⟨[("getValue", getValue)], by decide⟩, GoMap.empty⟩

/-- The allow-list that exposes `getValue` and renames nothing. -/
def getValueCustoms : Customs := ⟨⟨[("getValue", true)], by decide⟩, GoMap.empty⟩

/-- The allow-list that exposes nothing and renames nothing. -/
def noCustoms : Customs := ⟨GoMap.empty, GoMap.empty⟩

/-- The event `Transfer(address indexed from, address indexed to, uint256 value)`. -/
def transfer : abi.Event :=
  ⟨"Transfer", false, [⟨"from", address, true⟩, ⟨"to", address, true⟩, ⟨"value", uint256, false⟩]⟩

/-- The document with the single event `Transfer`. -/
def transferABI : abi.ABI :=
  ⟨noConstructor, GoMap.empty, ⟨[("Transfer", transfer)], by decide⟩⟩

/-- The method `store((uint256,address), uint256 memo, address) returns (bool ok)`. -/
def store : abi.Method :=
  ⟨"store", false,
    [⟨"", pairType, false⟩, ⟨"memo", uint256, false⟩, ⟨"", address, false⟩],
    [⟨"ok", basicType TypeKind.BoolTy "bool", false⟩]⟩

/-- The method `load(address) view returns ((uint256,address))`. -/
def load : abi.Method := ⟨"load", true, [⟨"", address, false⟩], [⟨"", pairType, false⟩]⟩

/-- The method `hidden()`. -/
def hidden : abi.Method := ⟨"hidden", false, [], []⟩

/-- The method `secret() view`. -/
def secret : abi.Method := ⟨"secret", true, [], []⟩

/-- The event `Deposit((uint256,address) indexed, uint256, address indexed)`. -/
def deposit : abi.Event :=
  ⟨"Deposit", false, [⟨"", pairType, true⟩, ⟨"", uint256, false⟩, ⟨"", address, true⟩]⟩

/-- The anonymous event `Ping(uint256 indexed n)`. -/
def ping : abi.Event := ⟨"Ping", true, [⟨"n", uint256, true⟩]⟩

/-- A document with five methods and three events. -/
def bankABI : abi.ABI :=
  ⟨noConstructor,
    ⟨[("getValue", getValue), ("store", store), ("hidden", hidden), ("load", load),
      ("secret", secret)], by decide⟩,
    ⟨[("Transfer", transfer), ("Ping", ping), ("Deposit", deposit)], by decide⟩⟩

/-- An allow-list for `bankABI`: three methods exposed, one mapped to false, one
left out; the struct `(uint256,address)` renamed to `Account`. -/
def bankCustoms : Customs :=
  ⟨⟨[("getValue", true), ("store", true), ("hidden", false), ("load", true)], by decide⟩,
    ⟨[("(uint256,address)", "Account")], by decide⟩⟩

/-- The document with the single method `store`. -/
def storeABI : abi.ABI :=
  ⟨noConstructor, ⟨[("store", store)], by decide⟩, GoMap.empty⟩

/-- The event `Logged((uint256,address) entry)`, its input not indexed. -/
def logged : abi.Event := ⟨"Logged", false, [⟨"entry", pairType, false⟩]⟩

/-- The document with the single event `Logged`. -/
def loggedABI : abi.ABI :=
  ⟨noConstructor, GoMap.empty, ⟨[("Logged", logged)], by decide⟩⟩

/-- The anonymous event `Raw((uint256,address) indexed entry)`. -/
def raw : abi.Event := ⟨"Raw", true, [⟨"entry", pairType, true⟩]⟩

/-- The document with the single event `Raw`. -/
def rawABI : abi.ABI :=
  ⟨noConstructor, GoMap.empty, ⟨[("Raw", raw)], by decide⟩⟩

/-- The allow-list that exposes `store` and renames nothing. -/
def storeCustoms : Customs := ⟨⟨[("store", true)], by decide⟩, GoMap.empty⟩

/-- The canonical text in the words of the spec: the runes that are no
whitespace, in order, each double quote among them then replaced by a backslash
and a double quote. -/
def canonicalText (raw : List Char) : List Char :=
  (raw.filter (fun r => !isSpace r)).flatMap
    (fun r => if r = dquote then [backslash, dquote] else [r])

/-- A raw text with blanks, a tab and a line feed between its tokens. -/
def getValueRaw : String := "[\x7b \"name\" :\t\"getValue\" \x7d]\n"

/-- A stand-in for `abi.JSON` that reads `getValueRaw` as `getValueABI` and
rejects every other text. -/
def getValueJSON (raw : String) : Except String abi.ABI :=
  if raw = getValueRaw then Except.ok getValueABI else Except.error "invalid character"

/-- A descriptor with no members. -/
def emptyContract : template.Contract :=
  ⟨noConstructor, GoMap.empty, GoMap.empty, GoMap.empty, GoMap.empty, ""⟩

/-- The descriptor that `parseContract` returns for `bankABI` and `bankCustoms`
with the instance `specEnv` and the target language Go. -/
def bankContract : template.Contract :=
  (parseContract specEnv bankABI bankCustoms Lang.Go).1.getD emptyContract

/-! ## Facts about Go maps -/

theorem lookup_isSome_iff {V : Type} (k : String) (l : List (String × V)) :
    (GoMap.lookup k l).isSome = true ↔ k ∈ l.map Prod.fst := by
  induction l with
  | nil => simp [GoMap.lookup]
  | cons hd tl ih =>
    obtain ⟨k1, v1⟩ := hd
    by_cases h : k1 = k
    · simp [GoMap.lookup, h]
    · have h2 : ¬ k = k1 := fun e => h e.symm
      simp [GoMap.lookup, h, h2, ih]

theorem contains_iff_mem_keys {V : Type} (m : GoMap V) (k : String) :
    m.contains k = true ↔ k ∈ m.keys :=
  lookup_isSome_iff k m.entries

theorem contains_false_iff {V : Type} (m : GoMap V) (k : String) :
    m.contains k = false ↔ k ∉ m.keys := by
  rw [← contains_iff_mem_keys]; simp

theorem mem_insertEntry {V : Type} (k : String) (v : V) (l : List (String × V))
    (p : String × V) (h : p ∈ GoMap.insertEntry k v l) : p = (k, v) ∨ p ∈ l := by
  induction l with
  | nil => simpa [GoMap.insertEntry] using h
  | cons hd tl ih =>
    obtain ⟨k1, v1⟩ := hd
    by_cases hk : k1 = k
    · simp only [GoMap.insertEntry, if_pos hk, List.mem_cons] at h
      rcases h with h | h
      · exact Or.inl h
      · exact Or.inr (List.mem_cons_of_mem _ h)
    · simp only [GoMap.insertEntry, if_neg hk, List.mem_cons] at h
      rcases h with h | h
      · exact Or.inr (by simp [h])
      · rcases ih h with h1 | h1
        · exact Or.inl h1
        · exact Or.inr (List.mem_cons_of_mem _ h1)

theorem mem_set_entries {V : Type} (m : GoMap V) (k : String) (v : V) (p : String × V)
    (h : p ∈ (m.set k v).entries) : p = (k, v) ∨ p ∈ m.entries :=
  mem_insertEntry k v m.entries p h

theorem mem_keys_set {V : Type} (m : GoMap V) (k : String) (v : V) (x : String) :
    x ∈ (m.set k v).keys ↔ x = k ∨ x ∈ m.keys :=
  GoMap.mem_keys_insertEntry k v m.entries x

theorem mem_keys_of_mem_entries {V : Type} (m : GoMap V) (k : String) (v : V)
    (h : (k, v) ∈ m.entries) : k ∈ m.keys :=
  List.mem_map.2 ⟨(k, v), h, rfl⟩

theorem exists_entry_of_mem_keys {V : Type} (m : GoMap V) (k : String)
    (h : k ∈ m.keys) : ∃ v, (k, v) ∈ m.entries := by
  obtain ⟨p, hp, hk⟩ := List.mem_map.1 h
  obtain ⟨k1, v1⟩ := p
  simp only at hk
  subst hk
  exact ⟨v1, hp⟩

theorem lookup_of_mem {V : Type} (k : String) (v : V) (l : List (String × V))
    (hn : (l.map Prod.fst).Nodup) (h : (k, v) ∈ l) : GoMap.lookup k l = some v := by
  induction l with
  | nil => simp at h
  | cons hd tl ih =>
    obtain ⟨k1, v1⟩ := hd
    simp only [List.map_cons, List.nodup_cons] at hn
    simp only [List.mem_cons, Prod.mk.injEq] at h
    rcases h with ⟨h1, h2⟩ | h
    · simp [GoMap.lookup, h1, h2]
    · have hk : k ∈ tl.map Prod.fst := List.mem_map.2 ⟨(k, v), h, rfl⟩
      have hne : ¬ k1 = k := by
        intro e
        apply hn.1
        rw [e]
        exact hk
      simp only [GoMap.lookup, if_neg hne]
      exact ih hn.2 h

theorem mem_of_lookup {V : Type} (k : String) (v : V) (l : List (String × V))
    (h : GoMap.lookup k l = some v) : (k, v) ∈ l := by
  induction l with
  | nil => simp [GoMap.lookup] at h
  | cons hd tl ih =>
    obtain ⟨k1, v1⟩ := hd
    by_cases hk : k1 = k
    · simp only [GoMap.lookup, if_pos hk, Option.some.injEq] at h
      simp [hk, h]
    · simp only [GoMap.lookup, if_neg hk] at h
      exact List.mem_cons_of_mem _ (ih h)

theorem get?_eq_some_iff {V : Type} (m : GoMap V) (k : String) (v : V) :
    m.get? k = some v ↔ (k, v) ∈ m.entries :=
  ⟨mem_of_lookup k v m.entries, lookup_of_mem k v m.entries m.nodup⟩

theorem entries_unique {V : Type} (m : GoMap V) (k : String) (v1 v2 : V)
    (h1 : (k, v1) ∈ m.entries) (h2 : (k, v2) ∈ m.entries) : v1 = v2 := by
  have e1 := (get?_eq_some_iff m k v1).2 h1
  have e2 := (get?_eq_some_iff m k v2).2 h2
  rw [e1] at e2
  exact Option.some.inj e2

theorem lookup_map_values {V : Type} (f : String → V → V) (k : String)
    (l : List (String × V)) :
    GoMap.lookup k (l.map (fun e => (e.1, f e.1 e.2))) = (GoMap.lookup k l).map (f k) := by
  induction l with
  | nil => simp [GoMap.lookup]
  | cons hd tl ih =>
    obtain ⟨k1, v1⟩ := hd
    by_cases hk : k1 = k
    · simp [GoMap.lookup, hk]
    · simp [GoMap.lookup, hk, ih]

theorem get?_mapValues {V : Type} (f : String → V → V) (m : GoMap V) (k : String) :
    (m.mapValues f).get? k = (m.get? k).map (f k) :=
  lookup_map_values f k m.entries

theorem keys_mapValues {V : Type} (f : String → V → V) (m : GoMap V) :
    (m.mapValues f).keys = m.keys := by
  simp only [GoMap.keys, GoMap.mapValues, List.map_map]
  rfl

theorem len_pos_of_contains {V : Type} (m : GoMap V) (k : String)
    (h : m.contains k = true) : 0 < m.len := by
  have hk := (contains_iff_mem_keys m k).1 h
  obtain ⟨v, hv⟩ := exists_entry_of_mem_keys m k hk
  exact List.length_pos_of_mem hv

/-! ## The renamed argument lists -/

theorem methodInputs_length (env : Env) (lang : Lang) (ins : List abi.Argument) :
    ∀ (j : Nat) (st : GoMap template.Struct × List ResolverCall),
      (methodInputs env lang j ins st).1.length = ins.length := by
  induction ins with
  | nil => intro j st; rfl
  | cons a rest ih =>
    intro j st
    simp only [methodInputs, List.length_cons, ih]

theorem methodInputs_getElem (env : Env) (lang : Lang) (ins : List abi.Argument) :
    ∀ (j : Nat) (st : GoMap template.Struct × List ResolverCall) (i : Nat) (a : abi.Argument),
      ins[i]? = some a →
      (methodInputs env lang j ins st).1[i]? =
        some (if a.Name = "" then { a with Name := "arg" ++ toString (j + i) } else a) := by
  induction ins with
  | nil => intro j st i a h; simp at h
  | cons b rest ih =>
    intro j st i a h
    cases i with
    | zero =>
      simp only [List.getElem?_cons_zero, Option.some.injEq] at h
      subst h
      simp [methodInputs]
    | succ n =>
      simp only [List.getElem?_cons_succ] at h
      have e : j + (n + 1) = j + 1 + n := by omega
      simp only [methodInputs, List.getElem?_cons_succ, e]
      exact ih (j + 1) _ n a h

theorem eventInputs_length (env : Env) (lang : Lang) (ins : List abi.Argument) :
    ∀ (j : Nat) (st : GoMap template.Struct × List ResolverCall),
      (eventInputs env lang j ins st).1.length = ins.length := by
  induction ins with
  | nil => intro j st; rfl
  | cons a rest ih =>
    intro j st
    simp only [eventInputs, List.length_cons, ih]

theorem eventInputs_getElem (env : Env) (lang : Lang) (ins : List abi.Argument) :
    ∀ (j : Nat) (st : GoMap template.Struct × List ResolverCall) (i : Nat) (a : abi.Argument),
      ins[i]? = some a →
      (eventInputs env lang j ins st).1[i]? =
        some (if a.Indexed = true then
          (if a.Name = "" then { a with Name := "arg" ++ toString (j + i) } else a) else a) := by
  induction ins with
  | nil => intro j st i a h; simp at h
  | cons b rest ih =>
    intro j st i a h
    cases i with
    | zero =>
      simp only [List.getElem?_cons_zero, Option.some.injEq] at h
      subst h
      simp [eventInputs]
    | succ n =>
      simp only [List.getElem?_cons_succ] at h
      have e : j + (n + 1) = j + 1 + n := by omega
      simp only [eventInputs, List.getElem?_cons_succ, e]
      exact ih (j + 1) _ n a h

/-! ## Invariants of the registry and of the log of resolver calls -/

/-- The sites at which an argument can reach the struct resolver: an event
input only when it is indexed. -/
def Allowed (site : Site) (a : abi.Argument) : Prop :=
  site = Site.eventInput → a.Indexed = true

/-- A property of the registry and the log that every guarded resolver call
at an allowed site keeps. -/
def Stable (env : Env) (lang : Lang)
    (I : GoMap template.Struct × List ResolverCall → Prop) : Prop :=
  ∀ (site : Site) (a : abi.Argument) (st : GoMap template.Struct × List ResolverCall),
    Allowed site a → I st → I (bindIfNew env lang site a st)

theorem methodInputs_stable (env : Env) (lang : Lang)
    (I : GoMap template.Struct × List ResolverCall → Prop) (hI : Stable env lang I)
    (ins : List abi.Argument) :
    ∀ (j : Nat) (st : GoMap template.Struct × List ResolverCall),
      I st → I (methodInputs env lang j ins st).2 := by
  induction ins with
  | nil => intro j st h; exact h
  | cons a rest ih =>
    intro j st h
    simp only [methodInputs]
    exact ih (j + 1) _ (hI Site.methodInput a st (by intro e; cases e) h)

theorem methodOutputs_stable (env : Env) (lang : Lang)
    (I : GoMap template.Struct × List ResolverCall → Prop) (hI : Stable env lang I)
    (outs : List abi.Argument) :
    ∀ (st : GoMap template.Struct × List ResolverCall),
      I st → I (methodOutputs env lang outs st).2 := by
  induction outs with
  | nil => intro st h; exact h
  | cons a rest ih =>
    intro st h
    simp only [methodOutputs]
    exact ih _ (hI Site.methodOutput a st (by intro e; cases e) h)

theorem eventInputs_stable (env : Env) (lang : Lang)
    (I : GoMap template.Struct × List ResolverCall → Prop) (hI : Stable env lang I)
    (ins : List abi.Argument) :
    ∀ (j : Nat) (st : GoMap template.Struct × List ResolverCall),
      I st → I (eventInputs env lang j ins st).2 := by
  induction ins with
  | nil => intro j st h; exact h
  | cons a rest ih =>
    intro j st h
    simp only [eventInputs]
    apply ih (j + 1)
    by_cases hx : a.Indexed = true
    · rw [if_pos hx]
      exact hI Site.eventInput a st (fun _ => hx) h
    · rw [if_neg hx]
      exact h

/-- The method descriptor that an iteration of the method loop stores. -/
def boundMethod (env : Env) (lang : Lang) (st : ParseState) (original : abi.Method) :
    template.Method :=
  { Original := original
    Normalized :=
      { Name := env.MethodNormalizer lang original.Name
        Const := original.Const
        Inputs := (methodInputs env lang 0 original.Inputs (st.structs, st.log)).1
        Outputs := (methodOutputs env lang original.Outputs
          (methodInputs env lang 0 original.Inputs (st.structs, st.log)).2).1 }
    Structured := env.Structured original.Outputs }

/-- The registry and log that an iteration of the method loop leaves for an
exposed method. -/
def afterMethod (env : Env) (lang : Lang) (st : ParseState) (original : abi.Method) :
    GoMap template.Struct × List ResolverCall :=
  (methodOutputs env lang original.Outputs
    (methodInputs env lang 0 original.Inputs (st.structs, st.log)).2).2

/-- The event descriptor that an iteration of the event loop stores. -/
def boundEvent (env : Env) (lang : Lang) (st : ParseState) (original : abi.Event) :
    template.Event :=
  { Original := original
    Normalized :=
      { Name := env.MethodNormalizer lang original.Name
        Anonymous := original.Anonymous
        Inputs := (eventInputs env lang 0 original.Inputs (st.structs, st.log)).1 } }

theorem methodStep_skip (env : Env) (customs : Customs) (lang : Lang) (st : ParseState)
    (e : String × abi.Method) (h : customs.Methods.get? e.1 ≠ some true) :
    methodStep env customs lang st e = st := by
  cases hg : customs.Methods.get? e.1 with
  | none => simp [methodStep, hg]
  | some b =>
    cases b with
    | true => exact absurd hg h
    | false => simp [methodStep, hg]

theorem methodStep_call (env : Env) (customs : Customs) (lang : Lang) (st : ParseState)
    (e : String × abi.Method) (h : customs.Methods.get? e.1 = some true)
    (hc : e.2.Const = true) :
    methodStep env customs lang st e =
      { st with
        calls := st.calls.set e.2.Name (boundMethod env lang st e.2)
        structs := (afterMethod env lang st e.2).1
        log := (afterMethod env lang st e.2).2 } := by
  simp [methodStep, h, hc, boundMethod, afterMethod]

theorem methodStep_transact (env : Env) (customs : Customs) (lang : Lang) (st : ParseState)
    (e : String × abi.Method) (h : customs.Methods.get? e.1 = some true)
    (hc : e.2.Const = false) :
    methodStep env customs lang st e =
      { st with
        transacts := st.transacts.set e.2.Name (boundMethod env lang st e.2)
        structs := (afterMethod env lang st e.2).1
        log := (afterMethod env lang st e.2).2 } := by
  simp [methodStep, h, hc, boundMethod, afterMethod]

theorem eventStep_skip (env : Env) (lang : Lang) (st : ParseState)
    (e : String × abi.Event) (h : e.2.Anonymous = true) :
    eventStep env lang st e = st := by
  simp [eventStep, h]

theorem eventStep_bind (env : Env) (lang : Lang) (st : ParseState)
    (e : String × abi.Event) (h : e.2.Anonymous = false) :
    eventStep env lang st e =
      { st with
        events := st.events.set e.2.Name (boundEvent env lang st e.2)
        structs := (eventInputs env lang 0 e.2.Inputs (st.structs, st.log)).2.1
        log := (eventInputs env lang 0 e.2.Inputs (st.structs, st.log)).2.2 } := by
  simp [eventStep, h, boundEvent]

theorem methodStep_stable (env : Env) (customs : Customs) (lang : Lang)
    (I : GoMap template.Struct × List ResolverCall → Prop) (hI : Stable env lang I)
    (st : ParseState) (e : String × abi.Method) (h : I (st.structs, st.log)) :
    I ((methodStep env customs lang st e).structs, (methodStep env customs lang st e).log) := by
  have key : I (afterMethod env lang st e.2) :=
    methodOutputs_stable env lang I hI _ _ (methodInputs_stable env lang I hI _ 0 _ h)
  by_cases hx : customs.Methods.get? e.1 = some true
  · cases hc : e.2.Const with
    | true => rw [methodStep_call env customs lang st e hx hc]; exact key
    | false => rw [methodStep_transact env customs lang st e hx hc]; exact key
  · rw [methodStep_skip env customs lang st e hx]; exact h

theorem eventStep_stable (env : Env) (lang : Lang)
    (I : GoMap template.Struct × List ResolverCall → Prop) (hI : Stable env lang I)
    (st : ParseState) (e : String × abi.Event) (h : I (st.structs, st.log)) :
    I ((eventStep env lang st e).structs, (eventStep env lang st e).log) := by
  have key : I (eventInputs env lang 0 e.2.Inputs (st.structs, st.log)).2 :=
    eventInputs_stable env lang I hI _ 0 _ h
  cases hc : e.2.Anonymous with
  | true => rw [eventStep_skip env lang st e hc]; exact h
  | false => rw [eventStep_bind env lang st e hc]; exact key

theorem methodFold_stable (env : Env) (customs : Customs) (lang : Lang)
    (I : GoMap template.Struct × List ResolverCall → Prop) (hI : Stable env lang I)
    (l : List (String × abi.Method)) :
    ∀ st : ParseState, I (st.structs, st.log) →
      I ((l.foldl (methodStep env customs lang) st).structs,
        (l.foldl (methodStep env customs lang) st).log) := by
  induction l with
  | nil => intro st h; exact h
  | cons e rest ih =>
    intro st h
    simp only [List.foldl_cons]
    exact ih _ (methodStep_stable env customs lang I hI st e h)

theorem eventFold_stable (env : Env) (lang : Lang)
    (I : GoMap template.Struct × List ResolverCall → Prop) (hI : Stable env lang I)
    (l : List (String × abi.Event)) :
    ∀ st : ParseState, I (st.structs, st.log) →
      I ((l.foldl (eventStep env lang) st).structs, (l.foldl (eventStep env lang) st).log) := by
  induction l with
  | nil => intro st h; exact h
  | cons e rest ih =>
    intro st h
    simp only [List.foldl_cons]
    exact ih _ (eventStep_stable env lang I hI st e h)

theorem eventPhase_stable (env : Env) (evmABI : abi.ABI) (customs : Customs) (lang : Lang)
    (I : GoMap template.Struct × List ResolverCall → Prop) (hI : Stable env lang I)
    (h0 : I (GoMap.empty, [])) :
    I ((eventPhase env evmABI customs lang).structs, (eventPhase env evmABI customs lang).log) :=
  eventFold_stable env lang I hI _ _ (methodFold_stable env customs lang I hI _ _ h0)

/-! ## Where the entries of the three member maps come from -/

theorem methodFold_calls (env : Env) (customs : Customs) (lang : Lang)
    (l : List (String × abi.Method)) :
    ∀ (st : ParseState) (p : String × template.Method),
      p ∈ (l.foldl (methodStep env customs lang) st).calls.entries →
      p ∈ st.calls.entries ∨
        ∃ e ∈ l, ∃ st1 : ParseState, customs.Methods.get? e.1 = some true ∧
          e.2.Const = true ∧ p = (e.2.Name, boundMethod env lang st1 e.2) := by
  induction l with
  | nil => intro st p h; exact Or.inl h
  | cons e rest ih =>
    intro st p h
    simp only [List.foldl_cons] at h
    rcases ih _ p h with h1 | ⟨e1, he1, st1, h2⟩
    · by_cases hx : customs.Methods.get? e.1 = some true
      · cases hc : e.2.Const with
        | true =>
          rw [methodStep_call env customs lang st e hx hc] at h1
          rcases mem_set_entries _ _ _ _ h1 with h3 | h3
          · exact Or.inr ⟨e, List.mem_cons_self _ _, st, hx, hc, h3⟩
          · exact Or.inl h3
        | false =>
          rw [methodStep_transact env customs lang st e hx hc] at h1
          exact Or.inl h1
      · rw [methodStep_skip env customs lang st e hx] at h1
        exact Or.inl h1
    · exact Or.inr ⟨e1, List.mem_cons_of_mem _ he1, st1, h2⟩

theorem methodFold_transacts (env : Env) (customs : Customs) (lang : Lang)
    (l : List (String × abi.Method)) :
    ∀ (st : ParseState) (p : String × template.Method),
      p ∈ (l.foldl (methodStep env customs lang) st).transacts.entries →
      p ∈ st.transacts.entries ∨
        ∃ e ∈ l, ∃ st1 : ParseState, customs.Methods.get? e.1 = some true ∧
          e.2.Const = false ∧ p = (e.2.Name, boundMethod env lang st1 e.2) := by
  induction l with
  | nil => intro st p h; exact Or.inl h
  | cons e rest ih =>
    intro st p h
    simp only [List.foldl_cons] at h
    rcases ih _ p h with h1 | ⟨e1, he1, st1, h2⟩
    · by_cases hx : customs.Methods.get? e.1 = some true
      · cases hc : e.2.Const with
        | true =>
          rw [methodStep_call env customs lang st e hx hc] at h1
          exact Or.inl h1
        | false =>
          rw [methodStep_transact env customs lang st e hx hc] at h1
          rcases mem_set_entries _ _ _ _ h1 with h3 | h3
          · exact Or.inr ⟨e, List.mem_cons_self _ _, st, hx, hc, h3⟩
          · exact Or.inl h3
      · rw [methodStep_skip env customs lang st e hx] at h1
        exact Or.inl h1
    · exact Or.inr ⟨e1, List.mem_cons_of_mem _ he1, st1, h2⟩

theorem methodStep_keys_mono (env : Env) (customs : Customs) (lang : Lang)
    (st : ParseState) (e : String × abi.Method) (k : String) :
    (k ∈ st.calls.keys → k ∈ (methodStep env customs lang st e).calls.keys) ∧
    (k ∈ st.transacts.keys → k ∈ (methodStep env customs lang st e).transacts.keys) := by
  by_cases hx : customs.Methods.get? e.1 = some true
  · cases hc : e.2.Const with
    | true =>
      rw [methodStep_call env customs lang st e hx hc]
      exact ⟨fun h => (mem_keys_set _ _ _ _).2 (Or.inr h), fun h => h⟩
    | false =>
      rw [methodStep_transact env customs lang st e hx hc]
      exact ⟨fun h => h, fun h => (mem_keys_set _ _ _ _).2 (Or.inr h)⟩
  · rw [methodStep_skip env customs lang st e hx]
    exact ⟨fun h => h, fun h => h⟩

theorem methodFold_keys_mono (env : Env) (customs : Customs) (lang : Lang)
    (l : List (String × abi.Method)) (k : String) :
    ∀ st : ParseState,
      (k ∈ st.calls.keys → k ∈ (l.foldl (methodStep env customs lang) st).calls.keys) ∧
      (k ∈ st.transacts.keys →
        k ∈ (l.foldl (methodStep env customs lang) st).transacts.keys) := by
  induction l with
  | nil => intro st; exact ⟨fun h => h, fun h => h⟩
  | cons e rest ih =>
    intro st
    simp only [List.foldl_cons]
    have h1 := methodStep_keys_mono env customs lang st e k
    have h2 := ih (methodStep env customs lang st e)
    exact ⟨fun h => h2.1 (h1.1 h), fun h => h2.2 (h1.2 h)⟩

theorem methodFold_exposed (env : Env) (customs : Customs) (lang : Lang)
    (l : List (String × abi.Method)) :
    ∀ (st : ParseState) (e : String × abi.Method), e ∈ l →
      customs.Methods.get? e.1 = some true →
      (e.2.Const = true → e.2.Name ∈ (l.foldl (methodStep env customs lang) st).calls.keys) ∧
      (e.2.Const = false →
        e.2.Name ∈ (l.foldl (methodStep env customs lang) st).transacts.keys) := by
  induction l with
  | nil => intro st e he; simp at he
  | cons e0 rest ih =>
    intro st e he hx
    simp only [List.foldl_cons]
    rcases List.mem_cons.1 he with h | h
    · subst h
      have hm := methodFold_keys_mono env customs lang rest e.2.Name
        (methodStep env customs lang st e)
      constructor
      · intro hc
        apply hm.1
        rw [methodStep_call env customs lang st e hx hc]
        exact (mem_keys_set _ _ _ _).2 (Or.inl rfl)
      · intro hc
        apply hm.2
        rw [methodStep_transact env customs lang st e hx hc]
        exact (mem_keys_set _ _ _ _).2 (Or.inl rfl)
    · exact ih _ e h hx

theorem methodStep_events (env : Env) (customs : Customs) (lang : Lang)
    (st : ParseState) (e : String × abi.Method) :
    (methodStep env customs lang st e).events = st.events := by
  by_cases hx : customs.Methods.get? e.1 = some true
  · cases hc : e.2.Const with
    | true => rw [methodStep_call env customs lang st e hx hc]
    | false => rw [methodStep_transact env customs lang st e hx hc]
  · rw [methodStep_skip env customs lang st e hx]

theorem methodFold_events (env : Env) (customs : Customs) (lang : Lang)
    (l : List (String × abi.Method)) :
    ∀ st : ParseState, (l.foldl (methodStep env customs lang) st).events = st.events := by
  induction l with
  | nil => intro st; rfl
  | cons e rest ih =>
    intro st
    simp only [List.foldl_cons]
    rw [ih, methodStep_events]

theorem eventStep_methods (env : Env) (lang : Lang) (st : ParseState)
    (e : String × abi.Event) :
    (eventStep env lang st e).calls = st.calls ∧
    (eventStep env lang st e).transacts = st.transacts := by
  cases hc : e.2.Anonymous with
  | true => rw [eventStep_skip env lang st e hc]; exact ⟨rfl, rfl⟩
  | false => rw [eventStep_bind env lang st e hc]; exact ⟨rfl, rfl⟩

theorem eventFold_methods (env : Env) (lang : Lang) (l : List (String × abi.Event)) :
    ∀ st : ParseState,
      (l.foldl (eventStep env lang) st).calls = st.calls ∧
      (l.foldl (eventStep env lang) st).transacts = st.transacts := by
  induction l with
  | nil => intro st; exact ⟨rfl, rfl⟩
  | cons e rest ih =>
    intro st
    simp only [List.foldl_cons]
    have h1 := ih (eventStep env lang st e)
    have h2 := eventStep_methods env lang st e
    exact ⟨h1.1.trans h2.1, h1.2.trans h2.2⟩

theorem eventFold_events (env : Env) (lang : Lang) (l : List (String × abi.Event)) :
    ∀ (st : ParseState) (p : String × template.Event),
      p ∈ (l.foldl (eventStep env lang) st).events.entries →
      p ∈ st.events.entries ∨
        ∃ e ∈ l, ∃ st1 : ParseState, e.2.Anonymous = false ∧
          p = (e.2.Name, boundEvent env lang st1 e.2) := by
  induction l with
  | nil => intro st p h; exact Or.inl h
  | cons e rest ih =>
    intro st p h
    simp only [List.foldl_cons] at h
    rcases ih _ p h with h1 | ⟨e1, he1, st1, h2⟩
    · cases hc : e.2.Anonymous with
      | true =>
        rw [eventStep_skip env lang st e hc] at h1
        exact Or.inl h1
      | false =>
        rw [eventStep_bind env lang st e hc] at h1
        rcases mem_set_entries _ _ _ _ h1 with h3 | h3
        · exact Or.inr ⟨e, List.mem_cons_self _ _, st, hc, h3⟩
        · exact Or.inl h3
    · exact Or.inr ⟨e1, List.mem_cons_of_mem _ he1, st1, h2⟩

/-! ## The descriptor in terms of the final state -/

theorem parseContract_ok (env : Env) (evmABI : abi.ABI) (customs : Customs) (lang : Lang)
    (c : template.Contract)
    (h : parseContract env evmABI customs lang = (some c, none)) :
    c.Constructor = evmABI.Constructor ∧
    c.Calls = (methodPhase env evmABI customs lang).calls ∧
    c.Transacts = (methodPhase env evmABI customs lang).transacts ∧
    c.Events = (eventPhase env evmABI customs lang).events ∧
    c.Structs = (eventPhase env evmABI customs lang).structs.mapValues (renameStruct customs) ∧
    c.InputABI = "" ∧
    ¬ (0 < (eventPhase env evmABI customs lang).structs.len ∧ lang = Lang.Java) := by
  unfold parseContract at h
  by_cases hj : 0 < (eventPhase env evmABI customs lang).structs.len ∧ lang = Lang.Java
  · rw [if_pos hj] at h
    simp at h
  · rw [if_neg hj] at h
    simp only [Prod.mk.injEq, Option.some.injEq, and_true] at h
    have hm := eventFold_methods env lang evmABI.Events.entries
      (methodPhase env evmABI customs lang)
    subst h
    exact ⟨rfl, hm.1, hm.2, rfl, rfl, rfl, hj⟩

theorem calls_origin (env : Env) (evmABI : abi.ABI) (customs : Customs) (lang : Lang)
    (p : String × template.Method)
    (h : p ∈ (methodPhase env evmABI customs lang).calls.entries) :
    ∃ e ∈ evmABI.Methods.entries, ∃ st1 : ParseState,
      customs.Methods.get? e.1 = some true ∧ e.2.Const = true ∧
      p = (e.2.Name, boundMethod env lang st1 e.2) := by
  rcases methodFold_calls env customs lang _ initState p h with h1 | h1
  · simp [initState, GoMap.empty] at h1
  · exact h1

theorem transacts_origin (env : Env) (evmABI : abi.ABI) (customs : Customs) (lang : Lang)
    (p : String × template.Method)
    (h : p ∈ (methodPhase env evmABI customs lang).transacts.entries) :
    ∃ e ∈ evmABI.Methods.entries, ∃ st1 : ParseState,
      customs.Methods.get? e.1 = some true ∧ e.2.Const = false ∧
      p = (e.2.Name, boundMethod env lang st1 e.2) := by
  rcases methodFold_transacts env customs lang _ initState p h with h1 | h1
  · simp [initState, GoMap.empty] at h1
  · exact h1

theorem events_origin (env : Env) (evmABI : abi.ABI) (customs : Customs) (lang : Lang)
    (p : String × template.Event)
    (h : p ∈ (eventPhase env evmABI customs lang).events.entries) :
    ∃ e ∈ evmABI.Events.entries, ∃ st1 : ParseState,
      e.2.Anonymous = false ∧ p = (e.2.Name, boundEvent env lang st1 e.2) := by
  rcases eventFold_events env lang _ (methodPhase env evmABI customs lang) p h with h1 | h1
  · have h0 := methodFold_events env customs lang evmABI.Methods.entries initState
    unfold methodPhase at h1
    rw [h0] at h1
    simp [initState, GoMap.empty] at h1
  · exact h1

/-! ## What the log of resolver calls records -/

/-- The condition under which `parseContract` calls the struct resolver: the
type of the argument is a tuple, its signature is not a key of the registry,
and at the event site the argument is indexed. -/
def CallGuard (call : ResolverCall) : Prop :=
  call.arg.Ty.T = TypeKind.TupleTy ∧
  call.before.contains call.arg.Ty.String = false ∧
  (call.site = Site.eventInput → call.arg.Indexed = true)

theorem callGuard_stable (env : Env) (lang : Lang) :
    Stable env lang (fun st => ∀ call ∈ st.2, CallGuard call) := by
  intro site a st hal hst
  unfold bindIfNew
  by_cases hg : a.Ty.T = TypeKind.TupleTy ∧ st.1.contains a.Ty.String = false
  · rw [if_pos hg]
    intro call hcall
    rcases List.mem_append.1 hcall with h1 | h1
    · exact hst call h1
    · simp only [List.mem_singleton] at h1
      subst h1
      exact ⟨hg.1, hg.2, hal⟩
  · rw [if_neg hg]
    exact hst

theorem resolverCalls_guarded (env : Env) (evmABI : abi.ABI) (customs : Customs)
    (lang : Lang) : ∀ call ∈ resolverCalls env evmABI customs lang, CallGuard call :=
  eventPhase_stable env evmABI customs lang _ (callGuard_stable env lang)
    (by intro call hcall; simp at hcall)

/-! ## What a tuple argument that reaches the guard leaves in the registry -/

/-- A property of the registry that the guarded call for the argument `a`
establishes from every state. -/
def Establishes (env : Env) (lang : Lang) (a : abi.Argument)
    (P : GoMap template.Struct → Prop) : Prop :=
  ∀ (site : Site) (st : GoMap template.Struct × List ResolverCall),
    P (bindIfNew env lang site a st).1

theorem methodInputs_reach (env : Env) (lang : Lang) (P : GoMap template.Struct → Prop)
    (hP : Stable env lang (fun st => P st.1))
    (a : abi.Argument) (ha : Establishes env lang a P) (ins : List abi.Argument) :
    ∀ (j : Nat) (st : GoMap template.Struct × List ResolverCall), a ∈ ins →
      P (methodInputs env lang j ins st).2.1 := by
  induction ins with
  | nil => intro j st h; simp at h
  | cons b rest ih =>
    intro j st h
    simp only [methodInputs]
    rcases List.mem_cons.1 h with h1 | h1
    · subst h1
      exact methodInputs_stable env lang _ hP rest (j + 1) _ (ha _ st)
    · exact ih (j + 1) _ h1

theorem methodOutputs_reach (env : Env) (lang : Lang) (P : GoMap template.Struct → Prop)
    (hP : Stable env lang (fun st => P st.1))
    (a : abi.Argument) (ha : Establishes env lang a P) (outs : List abi.Argument) :
    ∀ (st : GoMap template.Struct × List ResolverCall), a ∈ outs →
      P (methodOutputs env lang outs st).2.1 := by
  induction outs with
  | nil => intro st h; simp at h
  | cons b rest ih =>
    intro st h
    simp only [methodOutputs]
    rcases List.mem_cons.1 h with h1 | h1
    · subst h1
      exact methodOutputs_stable env lang _ hP rest _ (ha _ st)
    · exact ih _ h1

theorem eventInputs_reach (env : Env) (lang : Lang) (P : GoMap template.Struct → Prop)
    (hP : Stable env lang (fun st => P st.1))
    (a : abi.Argument) (ha : Establishes env lang a P) (hx : a.Indexed = true)
    (ins : List abi.Argument) :
    ∀ (j : Nat) (st : GoMap template.Struct × List ResolverCall), a ∈ ins →
      P (eventInputs env lang j ins st).2.1 := by
  induction ins with
  | nil => intro j st h; simp at h
  | cons b rest ih =>
    intro j st h
    simp only [eventInputs]
    rcases List.mem_cons.1 h with h1 | h1
    · subst h1
      rw [if_pos hx]
      exact eventInputs_stable env lang _ hP rest (j + 1) _ (ha _ st)
    · exact ih (j + 1) _ h1

theorem methodFold_reach (env : Env) (customs : Customs) (lang : Lang)
    (P : GoMap template.Struct → Prop) (hP : Stable env lang (fun st => P st.1))
    (e : String × abi.Method) (hx : customs.Methods.get? e.1 = some true)
    (a : abi.Argument) (ha : Establishes env lang a P)
    (hmem : a ∈ e.2.Inputs ∨ a ∈ e.2.Outputs) (l : List (String × abi.Method)) :
    ∀ st : ParseState, e ∈ l → P (l.foldl (methodStep env customs lang) st).structs := by
  induction l with
  | nil => intro st h; simp at h
  | cons e0 rest ih =>
    intro st h
    simp only [List.foldl_cons]
    rcases List.mem_cons.1 h with h1 | h1
    · subst h1
      apply methodFold_stable env customs lang (fun st => P st.1) hP rest
      have key : P (afterMethod env lang st e.2).1 := by
        unfold afterMethod
        rcases hmem with hm | hm
        · exact methodOutputs_stable env lang _ hP _ _
            (methodInputs_reach env lang P hP a ha _ 0 _ hm)
        · exact methodOutputs_reach env lang P hP a ha _ _ hm
      cases hc : e.2.Const with
      | true => rw [methodStep_call env customs lang st e hx hc]; exact key
      | false => rw [methodStep_transact env customs lang st e hx hc]; exact key
    · exact ih _ h1

theorem eventFold_reach (env : Env) (lang : Lang)
    (P : GoMap template.Struct → Prop) (hP : Stable env lang (fun st => P st.1))
    (e : String × abi.Event) (hn : e.2.Anonymous = false)
    (a : abi.Argument) (ha : Establishes env lang a P) (hx : a.Indexed = true)
    (hmem : a ∈ e.2.Inputs) (l : List (String × abi.Event)) :
    ∀ st : ParseState, e ∈ l → P (l.foldl (eventStep env lang) st).structs := by
  induction l with
  | nil => intro st h; simp at h
  | cons e0 rest ih =>
    intro st h
    simp only [List.foldl_cons]
    rcases List.mem_cons.1 h with h1 | h1
    · subst h1
      apply eventFold_stable env lang (fun st => P st.1) hP rest
      rw [eventStep_bind env lang st e hn]
      exact eventInputs_reach env lang P hP a ha hx _ 0 _ hmem
    · exact ih _ h1

theorem nonempty_stable (env : Env) (lang : Lang)
    (hres : ∀ (t : AbiType) (structs : GoMap template.Struct), t.T = TypeKind.TupleTy →
      0 < (env.BindStructType lang t structs).len) :
    Stable env lang (fun st => 0 < st.1.len) := by
  intro site a st _ hst
  unfold bindIfNew
  by_cases hg : a.Ty.T = TypeKind.TupleTy ∧ st.1.contains a.Ty.String = false
  · rw [if_pos hg]
    exact hres a.Ty st.1 hg.1
  · rw [if_neg hg]
    exact hst

theorem nonempty_established (env : Env) (lang : Lang)
    (hres : ∀ (t : AbiType) (structs : GoMap template.Struct), t.T = TypeKind.TupleTy →
      0 < (env.BindStructType lang t structs).len)
    (a : abi.Argument) (ha : a.Ty.T = TypeKind.TupleTy) :
    Establishes env lang a (fun structs => 0 < structs.len) := by
  intro site st
  unfold bindIfNew
  by_cases hg : a.Ty.T = TypeKind.TupleTy ∧ st.1.contains a.Ty.String = false
  · rw [if_pos hg]
    exact hres a.Ty st.1 ha
  · rw [if_neg hg]
    have hc : st.1.contains a.Ty.String = true := by
      cases hb : st.1.contains a.Ty.String with
      | true => rfl
      | false => exact absurd ⟨ha, hb⟩ hg
    exact len_pos_of_contains _ _ hc

theorem contains_stable (env : Env) (lang : Lang)
    (hkeep : ∀ (t : AbiType) (structs : GoMap template.Struct) (k : String),
      structs.contains k = true → (env.BindStructType lang t structs).contains k = true)
    (k : String) : Stable env lang (fun st => st.1.contains k = true) := by
  intro site a st _ hst
  unfold bindIfNew
  by_cases hg : a.Ty.T = TypeKind.TupleTy ∧ st.1.contains a.Ty.String = false
  · rw [if_pos hg]
    exact hkeep a.Ty st.1 k hst
  · rw [if_neg hg]
    exact hst

theorem contains_established (env : Env) (lang : Lang)
    (hreg : ∀ (t : AbiType) (structs : GoMap template.Struct), t.T = TypeKind.TupleTy →
      (env.BindStructType lang t structs).contains t.String = true)
    (a : abi.Argument) (ha : a.Ty.T = TypeKind.TupleTy) :
    Establishes env lang a (fun structs => structs.contains a.Ty.String = true) := by
  intro site st
  unfold bindIfNew
  by_cases hg : a.Ty.T = TypeKind.TupleTy ∧ st.1.contains a.Ty.String = false
  · rw [if_pos hg]
    exact hreg a.Ty st.1 ha
  · rw [if_neg hg]
    cases hb : st.1.contains a.Ty.String with
    | true => rfl
    | false => exact absurd ⟨ha, hb⟩ hg

/-- The signatures of the logged calls are keys of the registry and pairwise
distinct. -/
def LogDistinct (st : GoMap template.Struct × List ResolverCall) : Prop :=
  (∀ call ∈ st.2, st.1.contains call.arg.Ty.String = true) ∧
  (st.2.map (fun call => call.arg.Ty.String)).Nodup

theorem logDistinct_stable (env : Env) (lang : Lang)
    (hreg : ∀ (t : AbiType) (structs : GoMap template.Struct), t.T = TypeKind.TupleTy →
      (env.BindStructType lang t structs).contains t.String = true)
    (hkeep : ∀ (t : AbiType) (structs : GoMap template.Struct) (k : String),
      structs.contains k = true → (env.BindStructType lang t structs).contains k = true) :
    Stable env lang LogDistinct := by
  intro site a st _ hst
  unfold bindIfNew
  by_cases hg : a.Ty.T = TypeKind.TupleTy ∧ st.1.contains a.Ty.String = false
  · rw [if_pos hg]
    refine ⟨?_, ?_⟩
    · intro call hcall
      rcases List.mem_append.1 hcall with h1 | h1
      · exact hkeep a.Ty st.1 _ (hst.1 call h1)
      · simp only [List.mem_singleton] at h1
        subst h1
        exact hreg a.Ty st.1 hg.1
    · simp only [List.map_append, List.map_cons, List.map_nil]
      rw [List.nodup_append]
      refine ⟨hst.2, List.nodup_singleton _, ?_⟩
      intro x hx1 hx2
      simp only [List.mem_singleton] at hx2
      subst hx2
      obtain ⟨call, hcall, hsig⟩ := List.mem_map.1 hx1
      have h1 := hst.1 call hcall
      rw [hsig, hg.2] at h1
      exact Bool.noConfusion h1
  · rw [if_neg hg]
    exact hst

/-! ## The claims -/

/-- C1, allow-list filtering. In a document whose method map is keyed by the
method names, as `abi.JSON` builds it, and for which `parseContract` succeeds,
the name of a method is a key of `Calls` or of `Transacts` if and only if the
allow-list maps that name to true. -/
theorem allowlist_filtering (env : Env) (evmABI : abi.ABI) (customs : Customs) (lang : Lang)
    (c : template.Contract)
    (hkey : ∀ e ∈ evmABI.Methods.entries, e.1 = e.2.Name)
    (h : parseContract env evmABI customs lang = (some c, none))
    (m : abi.Method) (hm : m ∈ evmABI.Methods.entries.map Prod.snd) :
    (m.Name ∈ c.Calls.keys ∨ m.Name ∈ c.Transacts.keys) ↔
      customs.Methods.get? m.Name = some true := by
  obtain ⟨_, hcalls, htrans, _⟩ := parseContract_ok env evmABI customs lang c h
  rw [hcalls, htrans]
  constructor
  · rintro (hk | hk)
    · obtain ⟨v, hv⟩ := exists_entry_of_mem_keys _ _ hk
      obtain ⟨e, he, st1, hx, _, hp⟩ := calls_origin env evmABI customs lang _ hv
      have h1 : m.Name = e.2.Name := (Prod.mk.inj hp).1
      rw [h1, ← hkey e he]
      exact hx
    · obtain ⟨v, hv⟩ := exists_entry_of_mem_keys _ _ hk
      obtain ⟨e, he, st1, hx, _, hp⟩ := transacts_origin env evmABI customs lang _ hv
      have h1 : m.Name = e.2.Name := (Prod.mk.inj hp).1
      rw [h1, ← hkey e he]
      exact hx
  · intro hx
    obtain ⟨e, he, hem⟩ := List.mem_map.1 hm
    have hx1 : customs.Methods.get? e.1 = some true := by
      rw [hkey e he, hem]; exact hx
    have hex := methodFold_exposed env customs lang evmABI.Methods.entries initState e he hx1
    rw [hem] at hex
    cases hc : m.Const with
    | true => exact Or.inl (hex.1 hc)
    | false => exact Or.inr (hex.2 hc)

/-- C2, call/transact partition. In a document whose method map is keyed by the
method names and for which `parseContract` succeeds, no key is in both `Calls`
and `Transacts`, and an exposed method is in `Calls` and not in `Transacts` when
its `Const` flag is set, in `Transacts` and not in `Calls` otherwise, stored with
itself as `Original`. For the document with the single constant method
`getValue`, exposed, the descriptor has the one call `getValue`, no transact, no
event and no struct, whatever the external functions and the language. -/
theorem call_transact_partition :
    (∀ (env : Env) (evmABI : abi.ABI) (customs : Customs) (lang : Lang)
        (c : template.Contract),
      (∀ e ∈ evmABI.Methods.entries, e.1 = e.2.Name) →
      parseContract env evmABI customs lang = (some c, none) →
      (∀ k, ¬ (k ∈ c.Calls.keys ∧ k ∈ c.Transacts.keys)) ∧
      (∀ e ∈ evmABI.Methods.entries, customs.Methods.get? e.1 = some true →
        (e.2.Const = true →
          e.2.Name ∈ c.Calls.keys ∧ e.2.Name ∉ c.Transacts.keys ∧
          (c.Calls.get? e.2.Name).map (fun v => v.Original) = some e.2) ∧
        (e.2.Const = false →
          e.2.Name ∈ c.Transacts.keys ∧ e.2.Name ∉ c.Calls.keys ∧
          (c.Transacts.get? e.2.Name).map (fun v => v.Original) = some e.2))) ∧
    (∀ (env : Env) (lang : Lang), ∃ c : template.Contract,
      parseContract env getValueABI getValueCustoms lang = (some c, none) ∧
      c.Calls.keys = ["getValue"] ∧ c.Transacts.entries = [] ∧
      c.Events.entries = [] ∧ c.Structs.entries = []) := by
  refine ⟨?_, ?_⟩
  · intro env evmABI customs lang c hkey h
    obtain ⟨_, hcalls, htrans, _⟩ := parseContract_ok env evmABI customs lang c h
    rw [hcalls, htrans]
    have hdisj : ∀ k, ¬ (k ∈ (methodPhase env evmABI customs lang).calls.keys ∧
        k ∈ (methodPhase env evmABI customs lang).transacts.keys) := by
      rintro k ⟨h1, h2⟩
      obtain ⟨v1, hv1⟩ := exists_entry_of_mem_keys _ _ h1
      obtain ⟨v2, hv2⟩ := exists_entry_of_mem_keys _ _ h2
      obtain ⟨e1, he1, _, _, hc1, hp1⟩ := calls_origin env evmABI customs lang _ hv1
      obtain ⟨e2, he2, _, _, hc2, hp2⟩ := transacts_origin env evmABI customs lang _ hv2
      have k1 : e1.1 = k := by rw [hkey e1 he1]; exact ((Prod.mk.inj hp1).1).symm
      have k2 : e2.1 = k := by rw [hkey e2 he2]; exact ((Prod.mk.inj hp2).1).symm
      have m1 : (k, e1.2) ∈ evmABI.Methods.entries := by rw [← k1]; exact he1
      have m2 : (k, e2.2) ∈ evmABI.Methods.entries := by rw [← k2]; exact he2
      have heq := entries_unique evmABI.Methods k e1.2 e2.2 m1 m2
      rw [heq, hc2] at hc1
      exact Bool.noConfusion hc1
    refine ⟨hdisj, ?_⟩
    intro e he hx
    have hex := methodFold_exposed env customs lang evmABI.Methods.entries initState e he hx
    constructor
    · intro hc
      have hin := hex.1 hc
      refine ⟨hin, fun hn => hdisj _ ⟨hin, hn⟩, ?_⟩
      obtain ⟨v, hv⟩ := exists_entry_of_mem_keys _ _ hin
      obtain ⟨e1, he1, st1, _, _, hp1⟩ := calls_origin env evmABI customs lang _ hv
      have hg := (get?_eq_some_iff _ _ _).2 hv
      have n1 : e.2.Name = e1.2.Name := (Prod.mk.inj hp1).1
      have k1 : e1.1 = e.1 := by rw [hkey e1 he1, hkey e he]; exact n1.symm
      have m1 : (e.1, e1.2) ∈ evmABI.Methods.entries := by rw [← k1]; exact he1
      have heq := entries_unique evmABI.Methods e.1 e1.2 e.2 m1 he
      unfold methodPhase at hg ⊢
      rw [hg, (Prod.mk.inj hp1).2, heq]
      rfl
    · intro hc
      have hin := hex.2 hc
      refine ⟨hin, fun hn => hdisj _ ⟨hn, hin⟩, ?_⟩
      obtain ⟨v, hv⟩ := exists_entry_of_mem_keys _ _ hin
      obtain ⟨e1, he1, st1, _, _, hp1⟩ := transacts_origin env evmABI customs lang _ hv
      have hg := (get?_eq_some_iff _ _ _).2 hv
      have n1 : e.2.Name = e1.2.Name := (Prod.mk.inj hp1).1
      have k1 : e1.1 = e.1 := by rw [hkey e1 he1, hkey e he]; exact n1.symm
      have m1 : (e.1, e1.2) ∈ evmABI.Methods.entries := by rw [← k1]; exact he1
      have heq := entries_unique evmABI.Methods e.1 e1.2 e.2 m1 he
      unfold methodPhase at hg ⊢
      rw [hg, (Prod.mk.inj hp1).2, heq]
      rfl
  · intro env lang
    cases lang with
    | Go => exact ⟨_, rfl, rfl, rfl, rfl, rfl⟩
    | Java => exact ⟨_, rfl, rfl, rfl, rfl, rfl⟩

theorem bankContract_ok :
    parseContract specEnv bankABI bankCustoms Lang.Go = (some bankContract, none) := rfl

/-- The instance of C1 at the method `hidden` of `bankABI`, which the allow-list
maps to false. -/
theorem allowlist_filtering_witness :
    ("hidden" ∈ bankContract.Calls.keys ∨ "hidden" ∈ bankContract.Transacts.keys) ↔
      bankCustoms.Methods.get? "hidden" = some true :=
  allowlist_filtering specEnv bankABI bankCustoms Lang.Go bankContract (by decide)
    bankContract_ok hidden (by simp [bankABI])

/-- The instance of C2 at `bankABI`: the exposed constant method `load` is a call
and no transact. -/
theorem call_transact_partition_witness :
    "load" ∈ bankContract.Calls.keys ∧ "load" ∉ bankContract.Transacts.keys ∧
      (bankContract.Calls.get? "load").map (fun v => v.Original) = some load :=
  ((call_transact_partition.1 specEnv bankABI bankCustoms Lang.Go bankContract (by decide)
    bankContract_ok).2 ("load", load) (by simp [bankABI]) rfl).1 rfl

/-- C4, failure condition. `parseContract` returns an error exactly when the
language is Java and the registry is non-empty after the method phase and the
event phase; with an error the descriptor is nil, without one it is not. -/
theorem parseContract_failure_condition (env : Env) (evmABI : abi.ABI) (customs : Customs)
    (lang : Lang) :
    ((parseContract env evmABI customs lang).2 ≠ none ↔
      (lang = Lang.Java ∧ 0 < (eventPhase env evmABI customs lang).structs.len)) ∧
    ((parseContract env evmABI customs lang).2 ≠ none →
      (parseContract env evmABI customs lang).1 = none) ∧
    ((parseContract env evmABI customs lang).2 = none →
      (parseContract env evmABI customs lang).1 ≠ none) := by
  unfold parseContract
  by_cases hj : 0 < (eventPhase env evmABI customs lang).structs.len ∧ lang = Lang.Java
  · obtain ⟨h1, h2⟩ := hj
    subst h2
    rw [if_pos ⟨h1, rfl⟩]
    simp [h1]
  · rw [if_neg hj]
    simp only [ne_eq, not_true_eq_false, false_iff, not_and, not_lt, Nat.le_zero_eq,
      false_implies, true_and]
    refine ⟨?_, ?_⟩
    · intro hl
      by_contra hlen
      exact hj ⟨Nat.pos_of_ne_zero hlen, hl⟩
    · intro _ hh
      exact Option.noConfusion hh

/-- The instance of C4 at `bankABI` with the language Java: an error and no
descriptor. -/
theorem parseContract_failure_condition_witness :
    (parseContract specEnv bankABI bankCustoms Lang.Java).2 ≠ none ∧
    (parseContract specEnv bankABI bankCustoms Lang.Java).1 = none :=
  have h := parseContract_failure_condition specEnv bankABI bankCustoms Lang.Java
  have h1 := h.1.2 ⟨rfl, by decide⟩
  ⟨h1, h.2.1 h1⟩

/-- C5, anonymous exclusion. When `parseContract` succeeds, every entry of
`Events` has an `Original` that is not anonymous, so no anonymous event of the
document is the `Original` of an entry; and when the event map of the document
is keyed by the event names, the name of an anonymous event is no key of
`Events`. -/
theorem anonymous_exclusion (env : Env) (evmABI : abi.ABI) (customs : Customs) (lang : Lang)
    (c : template.Contract)
    (h : parseContract env evmABI customs lang = (some c, none)) :
    (∀ p ∈ c.Events.entries, p.2.Original.Anonymous = false) ∧
    (∀ e ∈ evmABI.Events.entries, e.2.Anonymous = true →
      ∀ p ∈ c.Events.entries, p.2.Original ≠ e.2) ∧
    ((∀ e ∈ evmABI.Events.entries, e.1 = e.2.Name) →
      ∀ e ∈ evmABI.Events.entries, e.2.Anonymous = true → e.2.Name ∉ c.Events.keys) := by
  obtain ⟨_, _, _, hev, _⟩ := parseContract_ok env evmABI customs lang c h
  rw [hev]
  have hall : ∀ p ∈ (eventPhase env evmABI customs lang).events.entries,
      p.2.Original.Anonymous = false := by
    intro p hp
    obtain ⟨e, _, st1, ha, hpe⟩ := events_origin env evmABI customs lang p hp
    rw [hpe]
    exact ha
  refine ⟨hall, ?_, ?_⟩
  · intro e _ ha p hp heq
    have h1 := hall p hp
    rw [heq, ha] at h1
    exact Bool.noConfusion h1
  · intro hkey e he ha hk
    obtain ⟨v, hv⟩ := exists_entry_of_mem_keys _ _ hk
    obtain ⟨e1, he1, st1, ha1, hp1⟩ := events_origin env evmABI customs lang _ hv
    have n1 : e.2.Name = e1.2.Name := (Prod.mk.inj hp1).1
    have k1 : e1.1 = e.1 := by rw [hkey e1 he1, hkey e he]; exact n1.symm
    have m1 : (e.1, e1.2) ∈ evmABI.Events.entries := by rw [← k1]; exact he1
    have heq := entries_unique evmABI.Events e.1 e1.2 e.2 m1 he
    rw [heq, ha] at ha1
    exact Bool.noConfusion ha1

/-- The instance of C5 at `bankABI`, whose event `Ping` is anonymous. -/
theorem anonymous_exclusion_witness :
    (∀ p ∈ bankContract.Events.entries, p.2.Original.Anonymous = false) ∧
    "Ping" ∉ bankContract.Events.keys :=
  have h := anonymous_exclusion specEnv bankABI bankCustoms Lang.Go bankContract bankContract_ok
  ⟨h.1, h.2.2 (by decide) ("Ping", ping) (by simp [bankABI]) rfl⟩

/-- C6, rename override. When `parseContract` succeeds, `Structs` has the keys of
the registry that the two phases left, in the same order; the struct under a
key `s` has the fields the resolver gave it; its name is `customs.Structs[s]`
when the allow-list has an entry for `s` and the name the resolver gave it
otherwise. -/
theorem rename_override (env : Env) (evmABI : abi.ABI) (customs : Customs) (lang : Lang)
    (c : template.Contract)
    (h : parseContract env evmABI customs lang = (some c, none)) :
    c.Structs.keys = (eventPhase env evmABI customs lang).structs.keys ∧
    ∀ s ∈ c.Structs.keys, ∃ resolved renamed : template.Struct,
      (eventPhase env evmABI customs lang).structs.get? s = some resolved ∧
      c.Structs.get? s = some renamed ∧
      renamed.Fields = resolved.Fields ∧
      (∀ n, customs.Structs.get? s = some n → renamed.Name = n) ∧
      (customs.Structs.get? s = none → renamed = resolved) := by
  obtain ⟨_, _, _, _, hst, _⟩ := parseContract_ok env evmABI customs lang c h
  rw [hst]
  refine ⟨keys_mapValues _ _, ?_⟩
  intro s hs
  rw [keys_mapValues] at hs
  obtain ⟨v, hv⟩ := exists_entry_of_mem_keys _ _ hs
  have hg := (get?_eq_some_iff _ _ _).2 hv
  refine ⟨v, renameStruct customs s v, hg, ?_, ?_, ?_, ?_⟩
  · rw [get?_mapValues, hg]; rfl
  · unfold renameStruct
    cases customs.Structs.get? s <;> rfl
  · intro n hn
    unfold renameStruct
    rw [hn]
  · intro hn
    unfold renameStruct
    rw [hn]

/-- The instance of C6 at `bankABI`: the struct `(uint256,address)`, which the
resolver names `Struct0`, carries the name `Account` of the allow-list. -/
theorem rename_override_witness :
    ((eventPhase specEnv bankABI bankCustoms Lang.Go).structs.get? "(uint256,address)").map
        (fun strt => strt.Name) = some "Struct0" ∧
    ∃ resolved renamed : template.Struct,
      (eventPhase specEnv bankABI bankCustoms Lang.Go).structs.get? "(uint256,address)"
        = some resolved ∧
      bankContract.Structs.get? "(uint256,address)" = some renamed ∧
      renamed.Fields = resolved.Fields ∧
      (∀ n, bankCustoms.Structs.get? "(uint256,address)" = some n → renamed.Name = n) ∧
      (bankCustoms.Structs.get? "(uint256,address)" = none → renamed = resolved) :=
  ⟨by decide,
    (rename_override specEnv bankABI bankCustoms Lang.Go bankContract bankContract_ok).2
      "(uint256,address)" (by decide)⟩

/-- C7, positional fallback for method inputs. When `parseContract` succeeds,
every entry of `Calls` and of `Transacts` has as many normalized inputs as
original ones, and the normalized name at position `i` of the input list is
`arg` followed by the decimal form of `i` when the original name there is empty,
and the original name otherwise. -/
theorem positional_fallback (env : Env) (evmABI : abi.ABI) (customs : Customs) (lang : Lang)
    (c : template.Contract)
    (h : parseContract env evmABI customs lang = (some c, none))
    (p : String × template.Method)
    (hp : p ∈ c.Calls.entries ∨ p ∈ c.Transacts.entries) :
    p.2.Normalized.Inputs.length = p.2.Original.Inputs.length ∧
    ∀ (i : Nat) (a : abi.Argument), p.2.Original.Inputs[i]? = some a →
      (p.2.Normalized.Inputs[i]?).map (fun b => b.Name) =
        some (if a.Name = "" then "arg" ++ toString i else a.Name) := by
  obtain ⟨_, hcalls, htrans, _⟩ := parseContract_ok env evmABI customs lang c h
  rw [hcalls, htrans] at hp
  have hb : ∃ (st1 : ParseState) (m : abi.Method), p.2 = boundMethod env lang st1 m := by
    rcases hp with hp | hp
    · obtain ⟨e, _, st1, _, _, hpe⟩ := calls_origin env evmABI customs lang p hp
      exact ⟨st1, e.2, by rw [hpe]⟩
    · obtain ⟨e, _, st1, _, _, hpe⟩ := transacts_origin env evmABI customs lang p hp
      exact ⟨st1, e.2, by rw [hpe]⟩
  obtain ⟨st1, m, hm⟩ := hb
  rw [hm]
  refine ⟨methodInputs_length env lang m.Inputs 0 _, ?_⟩
  intro i a ha
  have hg := methodInputs_getElem env lang m.Inputs 0 (st1.structs, st1.log) i a ha
  simp only [boundMethod]
  rw [hg, Nat.zero_add]
  by_cases hn : a.Name = ""
  · simp [hn]
  · simp [hn]

/-- The instance of C7 at the transact `store` of `bankABI`, whose inputs at the
positions 0 and 2 have no name. -/
theorem positional_fallback_witness :
    (bankContract.Transacts.entries.map
      (fun p => p.2.Normalized.Inputs.map (fun b => b.Name))) = [["arg0", "memo", "arg2"]] ∧
    ∀ (i : Nat) (a : abi.Argument), store.Inputs[i]? = some a →
      ((boundMethod specEnv Lang.Go initState store).Normalized.Inputs[i]?).map
          (fun b => b.Name) =
        some (if a.Name = "" then "arg" ++ toString i else a.Name) :=
  ⟨by decide,
    (positional_fallback specEnv bankABI bankCustoms Lang.Go bankContract bankContract_ok
      ("store", boundMethod specEnv Lang.Go initState store) (Or.inr (by
        have e : bankContract.Transacts.entries =
            [("store", boundMethod specEnv Lang.Go initState store)] := rfl
        rw [e]
        exact List.mem_singleton.2 rfl))).2⟩

/-- C8, indexed and non-indexed event inputs. When `parseContract` succeeds,
every entry of `Events` has as many normalized inputs as original ones, with
the type and the indexed flag of the original at each position; the name at
position `j` is `arg` followed by the decimal form of `j` when the input is
indexed and has no name, and the original name otherwise. Every call of the
struct resolver made at the event site has an indexed argument of tuple type.
For the document with the single event `Transfer(address indexed from, address
indexed to, uint256 value)` the descriptor has the one event `Transfer` with the
input names `from`, `to`, `value`, no struct is registered and the resolver is
not called, whatever the external functions, the allow-list and the language. -/
theorem event_indexed_asymmetry :
    (∀ (env : Env) (evmABI : abi.ABI) (customs : Customs) (lang : Lang),
      (∀ c : template.Contract, parseContract env evmABI customs lang = (some c, none) →
        ∀ p ∈ c.Events.entries,
          p.2.Normalized.Inputs.length = p.2.Original.Inputs.length ∧
          ∀ (j : Nat) (a : abi.Argument), p.2.Original.Inputs[j]? = some a →
            ∃ b : abi.Argument, p.2.Normalized.Inputs[j]? = some b ∧
              b.Ty = a.Ty ∧ b.Indexed = a.Indexed ∧
              b.Name = if a.Indexed = true ∧ a.Name = "" then "arg" ++ toString j
                else a.Name) ∧
      (∀ call ∈ resolverCalls env evmABI customs lang, call.site = Site.eventInput →
        call.arg.Indexed = true ∧ call.arg.Ty.T = TypeKind.TupleTy)) ∧
    (∀ (env : Env) (customs : Customs) (lang : Lang), ∃ c : template.Contract,
      parseContract env transferABI customs lang = (some c, none) ∧
      c.Events.keys = ["Transfer"] ∧
      (c.Events.get? "Transfer").map (fun v => v.Normalized.Inputs.map (fun b => b.Name))
        = some ["from", "to", "value"] ∧
      c.Structs.entries = [] ∧
      resolverCalls env transferABI customs lang = []) := by
  refine ⟨?_, ?_⟩
  · intro env evmABI customs lang
    refine ⟨?_, ?_⟩
    · intro c h p hp
      obtain ⟨_, _, _, hev, _⟩ := parseContract_ok env evmABI customs lang c h
      rw [hev] at hp
      obtain ⟨e, _, st1, _, hpe⟩ := events_origin env evmABI customs lang p hp
      rw [hpe]
      refine ⟨eventInputs_length env lang e.2.Inputs 0 _, ?_⟩
      intro j a ha
      have hg := eventInputs_getElem env lang e.2.Inputs 0 (st1.structs, st1.log) j a ha
      simp only [boundEvent]
      rw [hg, Nat.zero_add]
      refine ⟨_, rfl, ?_, ?_, ?_⟩
      · by_cases hi : a.Indexed = true
        · by_cases hn : a.Name = "" <;> simp [hi, hn]
        · simp [hi]
      · by_cases hi : a.Indexed = true
        · by_cases hn : a.Name = "" <;> simp [hi, hn]
        · simp [hi]
      · by_cases hi : a.Indexed = true
        · by_cases hn : a.Name = "" <;> simp [hi, hn]
        · simp [hi]
    · intro call hcall hsite
      have hg := resolverCalls_guarded env evmABI customs lang call hcall
      exact ⟨hg.2.2 hsite, hg.1⟩
  · intro env customs lang
    cases lang with
    | Go => exact ⟨_, rfl, rfl, rfl, rfl, rfl⟩
    | Java => exact ⟨_, rfl, rfl, rfl, rfl, rfl⟩

/-- The instance of C8 at `bankABI`: in the event `Deposit` the unnamed inputs at
the indexed positions 0 and 2 are named by position and the unnamed input at
the non-indexed position 1 keeps its empty name. -/
theorem event_indexed_asymmetry_witness :
    (bankContract.Events.get? "Deposit").map
        (fun v => v.Normalized.Inputs.map (fun b => b.Name)) = some ["arg0", "", "arg2"] ∧
    ∀ p ∈ bankContract.Events.entries,
      p.2.Normalized.Inputs.length = p.2.Original.Inputs.length ∧
      ∀ (j : Nat) (a : abi.Argument), p.2.Original.Inputs[j]? = some a →
        ∃ b : abi.Argument, p.2.Normalized.Inputs[j]? = some b ∧
          b.Ty = a.Ty ∧ b.Indexed = a.Indexed ∧
          b.Name = if a.Indexed = true ∧ a.Name = "" then "arg" ++ toString j
            else a.Name :=
  ⟨by decide,
    (event_indexed_asymmetry.1 specEnv bankABI bankCustoms Lang.Go).1 bankContract
      bankContract_ok⟩

/-- C3 as stated fails: with the language Java `parseContract` succeeds on a
document whose only tuple argument is an input of a method that the allow-list
does not expose, on one whose only tuple argument is a non-indexed event input,
and on one whose only tuple argument belongs to an anonymous event. -/
theorem tuple_rejection_counterexample :
    ((∃ e ∈ storeABI.Methods.entries, ∃ a ∈ e.2.Inputs, a.Ty.T = TypeKind.TupleTy) ∧
      (parseContract specEnv storeABI noCustoms Lang.Java).2 = none ∧
      (parseContract specEnv storeABI noCustoms Lang.Java).1 ≠ none) ∧
    ((∃ e ∈ loggedABI.Events.entries, ∃ a ∈ e.2.Inputs, a.Ty.T = TypeKind.TupleTy) ∧
      (parseContract specEnv loggedABI noCustoms Lang.Java).2 = none ∧
      (parseContract specEnv loggedABI noCustoms Lang.Java).1 ≠ none) ∧
    ((∃ e ∈ rawABI.Events.entries, ∃ a ∈ e.2.Inputs, a.Ty.T = TypeKind.TupleTy) ∧
      (parseContract specEnv rawABI noCustoms Lang.Java).2 = none ∧
      (parseContract specEnv rawABI noCustoms Lang.Java).1 ≠ none) := by
  refine ⟨⟨?_, rfl, ?_⟩, ⟨?_, rfl, ?_⟩, ⟨?_, rfl, ?_⟩⟩
  · exact ⟨("store", store), by simp [storeABI], ⟨"", pairType, false⟩, by simp [store], rfl⟩
  · intro h; exact Option.noConfusion h
  · exact ⟨("Logged", logged), by simp [loggedABI], ⟨"entry", pairType, false⟩,
      by simp [logged], rfl⟩
  · intro h; exact Option.noConfusion h
  · exact ⟨("Raw", raw), by simp [rawABI], ⟨"entry", pairType, true⟩, by simp [raw], rfl⟩
  · intro h; exact Option.noConfusion h

/-- C3, amended. If a method that the allow-list exposes has an input or an
output of tuple type, or an event that is not anonymous has an indexed input of
tuple type, and the struct resolver leaves a non-empty registry whenever it is
called on a tuple type, then `parseContract` with the language Java returns the
error and no descriptor. -/
theorem tuple_rejection (env : Env) (evmABI : abi.ABI) (customs : Customs)
    (hres : ∀ (t : AbiType) (structs : GoMap template.Struct), t.T = TypeKind.TupleTy →
      0 < (env.BindStructType Lang.Java t structs).len)
    (htuple :
      (∃ e ∈ evmABI.Methods.entries, customs.Methods.get? e.1 = some true ∧
        ∃ a, (a ∈ e.2.Inputs ∨ a ∈ e.2.Outputs) ∧ a.Ty.T = TypeKind.TupleTy) ∨
      (∃ e ∈ evmABI.Events.entries, e.2.Anonymous = false ∧
        ∃ a ∈ e.2.Inputs, a.Indexed = true ∧ a.Ty.T = TypeKind.TupleTy)) :
    parseContract env evmABI customs Lang.Java =
      (none, some "java binding for tuple arguments is not supported yet") := by
  have hlen : 0 < (eventPhase env evmABI customs Lang.Java).structs.len := by
    unfold eventPhase
    rcases htuple with ⟨e, he, hx, a, hmem, ha⟩ | ⟨e, he, hn, a, hmem, hx, ha⟩
    · apply eventFold_stable env Lang.Java (fun st => 0 < st.1.len)
        (nonempty_stable env Lang.Java hres)
      exact methodFold_reach env customs Lang.Java _ (nonempty_stable env Lang.Java hres) e hx a
        (nonempty_established env Lang.Java hres a ha) hmem _ _ he
    · exact eventFold_reach env Lang.Java _ (nonempty_stable env Lang.Java hres) e hn a
        (nonempty_established env Lang.Java hres a ha) hx hmem _ _ he
  unfold parseContract
  rw [if_pos ⟨hlen, rfl⟩]

theorem specEnv_registers (lang : Lang) (t : AbiType) (structs : GoMap template.Struct)
    (ht : t.T = TypeKind.TupleTy) :
    (specEnv.BindStructType lang t structs).contains t.String = true := by
  obtain ⟨T, s, n, el, els, names⟩ := t
  simp only [AbiType.T] at ht
  subst ht
  simp only [specEnv, AbiType.String, bindStructType]
  cases hg : structs.get? s with
  | some strt => simp [GoMap.contains, hg]
  | none =>
    simp only
    rw [contains_iff_mem_keys]
    exact (mem_keys_set _ _ _ _).2 (Or.inl rfl)

/-- The instance of the amended C3 at `storeABI` with `store` exposed. -/
theorem tuple_rejection_witness :
    parseContract specEnv storeABI storeCustoms Lang.Java =
      (none, some "java binding for tuple arguments is not supported yet") :=
  tuple_rejection specEnv storeABI storeCustoms
    (fun t structs ht => len_pos_of_contains _ _ (specEnv_registers Lang.Java t structs ht))
    (Or.inl ⟨("store", store), by simp [storeABI], rfl, ⟨"", pairType, false⟩,
      Or.inl (by simp [store]), rfl⟩)

mutual
theorem bindStructType_keeps : ∀ (t : AbiType) (structs : GoMap template.Struct) (k : String),
    structs.contains k = true → (bindStructType t structs).1.contains k = true
  | .mk T s _ el els names, structs, k, h => by
    cases T with
    | TupleTy =>
      simp only [bindStructType]
      cases hg : structs.get? s with
      | some strt => exact h
      | none =>
        simp only
        rw [contains_iff_mem_keys]
        refine (mem_keys_set _ _ _ _).2 (Or.inr ?_)
        rw [← contains_iff_mem_keys]
        exact bindFields_keeps els names structs k h
    | ArrayTy => exact bindFields_keeps el [] structs k h
    | SliceTy => exact bindFields_keeps el [] structs k h
    | IntTy => exact h
    | UintTy => exact h
    | BoolTy => exact h
    | StringTy => exact h
    | AddressTy => exact h
    | FixedBytesTy => exact h
    | BytesTy => exact h
    | HashTy => exact h
    | FixedPointTy => exact h
    | FunctionTy => exact h
theorem bindFields_keeps : ∀ (ts : List AbiType) (names : List String)
    (structs : GoMap template.Struct) (k : String),
    structs.contains k = true → (bindFields ts names structs).1.contains k = true
  | [], _, _, _, h => h
  | t :: ts, names, structs, k, h => by
    simp only [bindFields]
    exact bindFields_keeps ts names.tail _ k (bindStructType_keeps t structs k h)
end

/-- C9, struct dedup. Every call of the struct resolver that `parseContract`
makes has an argument of tuple type whose signature is no key of the registry at
that moment. If the resolver registers the type it is given under its canonical
signature and removes no key, no two calls have the same signature, and when
two different exposed methods have an input or output of tuple type with the
same signature `s` and `parseContract` succeeds, `Structs` has exactly one entry
with the key `s`. -/
theorem struct_dedup (env : Env) (evmABI : abi.ABI) (customs : Customs) (lang : Lang)
    (hreg : ∀ (t : AbiType) (structs : GoMap template.Struct), t.T = TypeKind.TupleTy →
      (env.BindStructType lang t structs).contains t.String = true)
    (hkeep : ∀ (t : AbiType) (structs : GoMap template.Struct) (k : String),
      structs.contains k = true → (env.BindStructType lang t structs).contains k = true) :
    (∀ call ∈ resolverCalls env evmABI customs lang,
      call.arg.Ty.T = TypeKind.TupleTy ∧
      call.before.contains call.arg.Ty.String = false) ∧
    ((resolverCalls env evmABI customs lang).map (fun call => call.arg.Ty.String)).Nodup ∧
    (∀ c : template.Contract, parseContract env evmABI customs lang = (some c, none) →
      ∀ e1 ∈ evmABI.Methods.entries, ∀ e2 ∈ evmABI.Methods.entries, e1.1 ≠ e2.1 →
      customs.Methods.get? e1.1 = some true → customs.Methods.get? e2.1 = some true →
      ∀ a1 a2 : abi.Argument, (a1 ∈ e1.2.Inputs ∨ a1 ∈ e1.2.Outputs) →
      (a2 ∈ e2.2.Inputs ∨ a2 ∈ e2.2.Outputs) →
      a1.Ty.T = TypeKind.TupleTy → a2.Ty.T = TypeKind.TupleTy →
      a1.Ty.String = a2.Ty.String →
      c.Structs.keys.count a1.Ty.String = 1) := by
  refine ⟨?_, ?_, ?_⟩
  · intro call hcall
    have hg := resolverCalls_guarded env evmABI customs lang call hcall
    exact ⟨hg.1, hg.2.1⟩
  · exact (eventPhase_stable env evmABI customs lang LogDistinct
      (logDistinct_stable env lang hreg hkeep)
      ⟨by intro call hcall; simp at hcall, by simp⟩).2
  · intro c h e1 he1 _ _ _ hx1 _ a1 _ hm1 _ ha1 _ _
    obtain ⟨_, _, _, _, hst, _⟩ := parseContract_ok env evmABI customs lang c h
    have hin : (eventPhase env evmABI customs lang).structs.contains a1.Ty.String = true := by
      unfold eventPhase
      apply eventFold_stable env lang (fun st => st.1.contains a1.Ty.String = true)
        (contains_stable env lang hkeep a1.Ty.String)
      exact methodFold_reach env customs lang _ (contains_stable env lang hkeep a1.Ty.String)
        e1 hx1 a1 (contains_established env lang hreg a1 ha1) hm1 _ _ he1
    have hk : a1.Ty.String ∈ c.Structs.keys := by
      rw [hst, keys_mapValues]
      exact (contains_iff_mem_keys _ _).1 hin
    exact List.count_eq_one_of_mem c.Structs.nodup hk

/-- The instance of C9 at `bankABI`: the exposed methods `store` and `load` both
refer to `(uint256,address)`; the resolver is called once and `Structs` has one
entry for the signature. -/
theorem struct_dedup_witness :
    (resolverCalls specEnv bankABI bankCustoms Lang.Go).length = 1 ∧
    ((resolverCalls specEnv bankABI bankCustoms Lang.Go).map
      (fun call => call.arg.Ty.String)).Nodup ∧
    bankContract.Structs.keys.count "(uint256,address)" = 1 :=
  have h := struct_dedup specEnv bankABI bankCustoms Lang.Go
    (fun t structs ht => specEnv_registers Lang.Go t structs ht)
    (fun t structs k hk => bindStructType_keeps t structs k hk)
  ⟨rfl, h.2.1,
    h.2.2 bankContract bankContract_ok ("store", store) (by simp [bankABI])
      ("load", load) (by simp [bankABI]) (by decide) rfl rfl
      ⟨"", pairType, false⟩ ⟨"", pairType, false⟩ (Or.inl (by simp [store]))
      (Or.inr (by simp [load])) rfl rfl rfl⟩

theorem getContract_ok (env : Env) (abiJSON : String → Except String abi.ABI)
    (rawABI : String) (customs : Customs) (lang : Lang) (c : template.Contract)
    (h : getContract env abiJSON rawABI customs lang = (some c, none)) :
    ∃ (evmABI : abi.ABI) (c0 : template.Contract),
      abiJSON rawABI = Except.ok evmABI ∧
      parseContract env evmABI customs lang = (some c0, none) ∧
      c = { c0 with InputABI := String.mk (escapeQuotes (stripSpaces rawABI.data)) } := by
  unfold getContract at h
  cases hj : abiJSON rawABI with
  | error err =>
    rw [hj] at h
    simp at h
  | ok evmABI =>
    rw [hj] at h
    simp only at h
    rcases hp : parseContract env evmABI customs lang with ⟨d, err⟩
    rw [hp] at h
    cases err with
    | some msg => simp at h
    | none =>
      cases d with
      | none => simp at h
      | some c0 =>
        simp only [Prod.mk.injEq, Option.some.injEq, and_true] at h
        exact ⟨evmABI, c0, rfl, hp, h.symm⟩

theorem stripSpaces_eq_filter (raw : List Char) :
    stripSpaces raw = raw.filter (fun r => !isSpace r) := by
  induction raw with
  | nil => rfl
  | cons r rest ih =>
    cases hs : isSpace r with
    | true => simp [stripSpaces, hs, ih]
    | false => simp [stripSpaces, hs, ih]

theorem escapeQuotes_eq_flatMap (l : List Char) :
    escapeQuotes l = l.flatMap (fun r => if r = dquote then [backslash, dquote] else [r]) := by
  induction l with
  | nil => rfl
  | cons r rest ih =>
    by_cases hq : r = dquote
    · simp [escapeQuotes, hq, ih, List.flatMap_cons]
    · simp [escapeQuotes, hq, ih, List.flatMap_cons]

theorem mem_stripSpaces (raw : List Char) (r : Char) (h : r ∈ stripSpaces raw) :
    isSpace r = false := by
  rw [stripSpaces_eq_filter] at h
  have h1 := (List.mem_filter.1 h).2
  simpa using h1

theorem mem_escapeQuotes (l : List Char) (r : Char) (h : r ∈ escapeQuotes l) :
    r = backslash ∨ r ∈ l := by
  induction l with
  | nil => simp [escapeQuotes] at h
  | cons x rest ih =>
    by_cases hq : x = dquote
    · simp only [escapeQuotes, if_pos hq, List.mem_cons] at h
      rcases h with h | h | h
      · exact Or.inl h
      · exact Or.inr (by rw [h, hq]; exact List.mem_cons_self _ _)
      · rcases ih h with h1 | h1
        · exact Or.inl h1
        · exact Or.inr (List.mem_cons_of_mem _ h1)
    · simp only [escapeQuotes, if_neg hq, List.mem_cons] at h
      rcases h with h | h
      · exact Or.inr (by rw [h]; exact List.mem_cons_self _ _)
      · rcases ih h with h1 | h1
        · exact Or.inl h1
        · exact Or.inr (List.mem_cons_of_mem _ h1)

theorem escapeQuotes_length (l : List Char) :
    (escapeQuotes l).length = l.length + l.count dquote := by
  induction l with
  | nil => rfl
  | cons x rest ih =>
    by_cases hq : x = dquote
    · subst hq
      simp only [escapeQuotes, if_true, List.length_cons, ih, List.count_cons_self]
      omega
    · rw [List.count_cons_of_ne (fun e => hq e.symm)]
      simp only [escapeQuotes, if_neg hq, List.length_cons, ih]
      omega

theorem count_dquote_stripSpaces (raw : List Char) :
    (stripSpaces raw).count dquote = raw.count dquote := by
  induction raw with
  | nil => rfl
  | cons r rest ih =>
    cases hs : isSpace r with
    | true =>
      have hne : r ≠ dquote := by
        intro e1
        rw [e1] at hs
        exact absurd hs (by decide)
      rw [List.count_cons_of_ne (fun e => hne e.symm)]
      simp only [stripSpaces, hs, if_true, ih]
    | false =>
      simp only [stripSpaces, hs, Bool.false_eq_true, if_false, List.count_cons, ih]

theorem escapeQuotes_quote_escaped (l : List Char) :
    ∀ i : Nat, (escapeQuotes l)[i]? = some dquote →
      0 < i ∧ (escapeQuotes l)[i - 1]? = some backslash := by
  induction l with
  | nil => intro i h; simp [escapeQuotes] at h
  | cons x rest ih =>
    intro i h
    by_cases hq : x = dquote
    · simp only [escapeQuotes, if_pos hq] at h ⊢
      match i, h with
      | 0, h =>
        simp only [List.getElem?_cons_zero, Option.some.injEq] at h
        exact absurd h (by decide)
      | 1, _ => exact ⟨by omega, rfl⟩
      | n + 2, h =>
        simp only [List.getElem?_cons_succ] at h
        obtain ⟨hn, hb⟩ := ih n h
        refine ⟨by omega, ?_⟩
        have e : n + 2 - 1 = (n - 1) + 1 + 1 := by omega
        rw [e]
        simpa only [List.getElem?_cons_succ] using hb
    · simp only [escapeQuotes, if_neg hq] at h ⊢
      match i, h with
      | 0, h =>
        simp only [List.getElem?_cons_zero, Option.some.injEq] at h
        exact absurd h hq
      | n + 1, h =>
        simp only [List.getElem?_cons_succ] at h
        obtain ⟨hn, hb⟩ := ih n h
        refine ⟨by omega, ?_⟩
        have e : n + 1 - 1 = (n - 1) + 1 := by omega
        rw [e]
        simpa only [List.getElem?_cons_succ] using hb

/-- C10, canonicalized ABI text. When `getContract` succeeds, `InputABI` is the
text that the calls of `strings.Map` and `strings.Replace` compute, and that is
the canonical text of the spec: the runes of the raw text that are no
whitespace, in order, with every double quote replaced by a backslash and a
double quote. No rune of it is whitespace, every double quote in it follows a
backslash, and its length is the number of runes of the raw text that are no
whitespace plus the number of double quotes of the raw text. Every successful
`getContract` on the same raw text, whatever the parser, the external
functions, the allow-list and the language, returns the same `InputABI`. -/
theorem canonical_abi_text (env : Env) (abiJSON : String → Except String abi.ABI)
    (rawABI : String) (customs : Customs) (lang : Lang) (c : template.Contract)
    (h : getContract env abiJSON rawABI customs lang = (some c, none)) :
    c.InputABI.data = escapeQuotes (stripSpaces rawABI.data) ∧
    c.InputABI.data = canonicalText rawABI.data ∧
    (∀ r ∈ c.InputABI.data, isSpace r = false) ∧
    (∀ i : Nat, c.InputABI.data[i]? = some dquote →
      0 < i ∧ c.InputABI.data[i - 1]? = some backslash) ∧
    c.InputABI.length =
      (rawABI.data.filter (fun r => !isSpace r)).length + rawABI.data.count dquote ∧
    (∀ (env1 : Env) (abiJSON1 : String → Except String abi.ABI) (customs1 : Customs)
      (lang1 : Lang) (c1 : template.Contract),
      getContract env1 abiJSON1 rawABI customs1 lang1 = (some c1, none) →
      c1.InputABI = c.InputABI) := by
  obtain ⟨evmABI, c0, _, _, hc⟩ := getContract_ok env abiJSON rawABI customs lang c h
  have hd : c.InputABI.data = escapeQuotes (stripSpaces rawABI.data) := by rw [hc]
  refine ⟨hd, ?_, ?_, ?_, ?_, ?_⟩
  · rw [hd, escapeQuotes_eq_flatMap, stripSpaces_eq_filter]
    rfl
  · intro r hr
    rw [hd] at hr
    rcases mem_escapeQuotes _ r hr with h1 | h1
    · rw [h1]; decide
    · exact mem_stripSpaces _ r h1
  · rw [hd]
    exact escapeQuotes_quote_escaped _
  · have hl : c.InputABI.length = c.InputABI.data.length := rfl
    rw [hl, hd, escapeQuotes_length, count_dquote_stripSpaces, stripSpaces_eq_filter]
  · intro env1 abiJSON1 customs1 lang1 c1 h1
    obtain ⟨_, _, _, _, hc1⟩ := getContract_ok env1 abiJSON1 rawABI customs1 lang1 c1 h1
    rw [hc1, hc]

/-- The descriptor that `getContract` returns for `getValueRaw`. -/
def getValueContract : template.Contract :=
  (getContract specEnv getValueJSON getValueRaw getValueCustoms Lang.Go).1.getD emptyContract

/-- The instance of C10 at `getValueRaw`: the canonical text has no blank, tab or
line feed, and its four double quotes are escaped. -/
theorem canonical_abi_text_witness :
    getValueContract.InputABI = "[\x7b\\\"name\\\":\\\"getValue\\\"\x7d]" ∧
    getValueContract.InputABI.data = canonicalText getValueRaw.data ∧
    getValueContract.InputABI.length = 21 + 4 :=
  have h := canonical_abi_text specEnv getValueJSON getValueRaw getValueCustoms Lang.Go
    getValueContract (by
      have hj : getValueJSON getValueRaw = Except.ok getValueABI := by
        unfold getValueJSON
        rw [if_pos rfl]
      unfold getValueContract getContract
      rw [hj]
      rfl)
  ⟨by decide, h.2.1, by decide⟩

end Solgen
